import Mathlib

/-!
# go-chucklechain: the versioned object store (`datastore/datastore.go`)

A shallow embedding of package `datastore`: the revision calculator `getRev`,
the singleton connection `openConn`, and the operations `Read`, `Write`,
`Delete` and `ReadAll`, followed by theorems about them.

Modelling conventions.

* Go strings are `String`s; the text processing of the source works on their
  character lists.  Only valid Unicode text is represented.
* `int` is 64 bits wide: arithmetic on it is arithmetic on `Int` followed by
  `wrapInt`.
* A Go call returning `(value, error)` becomes a `Res`: `ok value`, `error e`,
  or `panic` when the call does not return at all (nil dereference, a slice
  that cannot grow).  The value that accompanies a non-nil error is dropped;
  a nil handle returned with a nil error is `ok none`.
* Slices are lists.  The `append` of `Write` is `growHistory`: there the length
  of the slice runs in step with an `int` counter, so the bound on the length
  of a slice is kept.
* Package state (`once`, `instance`) and the contents of the engine directory
  are the fields of `World`; every operation maps a world to a result and the
  next world.  Calls are sequential.
* The libraries are outside the repository.  `encoding/json` on the payload,
  `crypto/sha256` and the failure of `badger.Open` are the fields of `Deps`.
  The JSON text of an envelope is represented by its parse, `Stored`: either
  the six fields of the record (the payload still as JSON text) or text that
  is not such a record.  The engine is the ordered key-value map of the
  specification, with the tests it makes on a key (`txnGet`, `checkKey`); a
  transaction that passes them commits.
-/

namespace Datastore

/-! ## Machine integers and text -/

/-- The largest value of `int` (64 bits). -/
def maxInt : Nat := 2 ^ 63 - 1

/-- Two's-complement wrap of a mathematical integer into `int`. -/
def wrapInt (x : Int) : Int := (x + 2 ^ 63) % 2 ^ 64 - 2 ^ 63

/-- The errors the package returns, named after their origin. -/
inductive Error where
  /-- Error `strconv.ErrSyntax`. -/
  | ErrSyntax
  /-- Error `strconv.ErrRange`. -/
  | ErrRange
  /-- Error `badger.ErrKeyNotFound` ("Key not found"). -/
  | ErrKeyNotFound
  /-- Error `badger.ErrReadOnlyTxn`. -/
  | ErrReadOnlyTxn
  /-- Error `badger.ErrEmptyKey` ("Key cannot be empty"). -/
  | ErrEmptyKey
  /-- Error `badger.ErrInvalidKey` (a key with the engine's reserved prefix). -/
  | ErrInvalidKey
  /-- The engine's error for a key of more than 65000 bytes. -/
  | ErrKeySize
  /-- Failure of `json.Marshal`. -/
  | marshal
  /-- Failure of `json.Unmarshal`. -/
  | unmarshal
  /-- Failure of `badger.Open`, with the engine's code for it. -/
  | open_ (code : Nat)
  /-- Failure of `uuid.NewUUID`. -/
  | uuid
  deriving DecidableEq, Repr

/-- Outcome of a Go call: a value with a nil error, a non-nil error, or no
return at all. -/
inductive Res (α : Type) where
  | ok : α → Res α
  | error : Error → Res α
  | panic : Res α
  deriving DecidableEq, Repr

/-- ASCII decimal digit test, as in `strconv`. -/
def isDigit (c : Char) : Bool := decide (48 ≤ c.toNat) && decide (c.toNat ≤ 57)

/-- The digit loop of `strconv.ParseUint` in base 10 (underscores are only
legal with base 0): `none` on the first character that is not a digit. -/
def parseDigits : List Char → Nat → Option Nat
  | [], acc => some acc
  | c :: cs, acc =>
    if isDigit c then parseDigits cs (acc * 10 + (c.toNat - 48)) else none

/-- Function `strconv.ParseInt(s, 10, 0)`: optional sign, then at least one
digit; the value must fit `int`. -/
def ParseInt (s : List Char) : Res Int :=
  match s with
  | [] => .error .ErrSyntax
  | c :: cs =>
    let neg := c == '-'
    let body := if c == '+' || c == '-' then cs else c :: cs
    match body with
    | [] => .error .ErrSyntax
    | _ :: _ =>
      match parseDigits body 0 with
      | none => .error .ErrSyntax
      | some un =>
        if !neg && (2 : Nat) ^ 63 ≤ un then .error .ErrRange
        else if neg && (2 : Nat) ^ 63 < un then .error .ErrRange
        else .ok (if neg then -(un : Int) else (un : Int))

/-- The digit loop of `fmt`'s `%d`: the decimal digits of `u`, most significant
first, in front of `acc`.  The first argument bounds the number of digits. -/
def fmtDigits : Nat → Nat → List Char → List Char
  | 0, _, acc => acc
  | fuel + 1, u, acc =>
    if u < 10 then Char.ofNat (48 + u) :: acc
    else fmtDigits fuel (u / 10) (Char.ofNat (48 + u % 10) :: acc)

/-- Decimal text of a natural number. -/
def fmtNat (u : Nat) : List Char := fmtDigits (u + 1) u []

/-- Verb `%d` of `fmt.Sprintf` on an `int`. -/
def fmtInt : Int → List Char
  | .ofNat n => fmtNat n
  | .negSucc n => '-' :: fmtNat (n + 1)

/-- Function `strings.Split(s, sep)` for a one-character separator: the pieces
of `s` between separators; never the empty list. -/
def Split (sep : Char) : List Char → List (List Char)
  | [] => [[]]
  | c :: cs =>
    if c = sep then [] :: Split sep cs
    else
      match Split sep cs with
      | [] => [[c]]
      | p :: ps => (c :: p) :: ps

/-- The alphabet of `encoding/hex`. -/
def hextable : List Char := "0123456789abcdef".data

/-- Function `hex.EncodeToString`: two characters of `hextable` per byte, high
nibble first. -/
def EncodeToString : List Nat → List Char
  | [] => []
  | v :: vs =>
    hextable.getD (v % 256 / 16) '0' :: hextable.getD (v % 16) '0' :: EncodeToString vs

/-! ## Data model -/

/-- Type `Object[T]`. -/
structure Object (T : Type) where
  UUID : String
  Rev : String
  History : List String
  Data : T
  Environment : String
  Typ : String
  deriving DecidableEq, Repr

/-- Type `badger.Options`, reduced to the fields the package touches. -/
structure Options where
  Dir : String
  ReadOnly : Bool
  Logger : Bool
  deriving DecidableEq, Repr

/-- Function `badger.DefaultOptions`: a read-write store with the default
logger. -/
def DefaultOptions (path : String) : Options :=
  { Dir := path, ReadOnly := false, Logger := true }

/-- Method `Options.WithReadOnly`: it has a value receiver and returns the
changed copy; the receiver is left as it was. -/
def Options.WithReadOnly (opt : Options) (val : Bool) : Options :=
  { opt with ReadOnly := val }

/-- Type `badger.DB`: an open engine remembers the options it was opened
with. -/
structure DB where
  opt : Options
  deriving DecidableEq, Repr

/-- Type `driver`. -/
structure driver where
  conn : DB
  deriving DecidableEq, Repr

/-- What the libraries contribute: `json.Marshal` and `json.Unmarshal` on a
payload of type `T`, the SHA-256 digest (a list of bytes) of a text, and the
error, if any, with which `badger.Open` fails for given options. -/
structure Deps (T : Type) where
  Marshal : T → Option String
  Unmarshal : String → Option T
  Sum256 : String → List Nat
  OpenErr : Options → Option Error

/-- The persisted record: the JSON object with the fields `uuid`, `_rev`,
`_history`, `data`, `_env` and `_type`; `data` is the payload's JSON text. -/
structure Envelope where
  uuid : String
  rev : String
  history : List String
  data : String
  env : String
  typ : String
  deriving DecidableEq, Repr

/-- An engine value: the JSON text of an envelope, or any other bytes. -/
inductive Stored where
  | envelope : Envelope → Stored
  | other : String → Stored
  deriving DecidableEq, Repr

/-- The process and its disk: whether `once` has fired, the package variable
`instance` (`none` is nil), and the engine's records in key order. -/
structure World where
  once : Bool
  inst : Option driver
  disk : List (String × Stored)
  deriving DecidableEq, Repr

/-- A process that has not yet called `openConn`, over the given records. -/
def World.start (disk : List (String × Stored)) : World :=
  { once := false, inst := none, disk := disk }

/-! ## The engine -/

/-- Modelled from the spec: the engine's order of keys, bytewise (UTF-8 keeps
the order of code points). -/
def keyLt : List Char → List Char → Bool
  | [], [] => false
  | [], _ :: _ => true
  | _ :: _, [] => false
  | a :: as, b :: bs => decide (a.toNat < b.toNat) || (a == b && keyLt as bs)

/-- Modelled from the spec: the value the engine holds under `key`, if any. -/
def diskGet (key : String) : List (String × Stored) → Option Stored
  | [] => none
  | (k, v) :: rest => if k = key then some v else diskGet key rest

/-- Modelled from the spec: the records after a value is put under `key`; it
replaces the value there or goes to its place in key order. -/
def diskSet (key : String) (val : Stored) : List (String × Stored) → List (String × Stored)
  | [] => [(key, val)]
  | (k, v) :: rest =>
    if k = key then (key, val) :: rest
    else if keyLt key.data k.data then (key, val) :: (k, v) :: rest
    else (k, v) :: diskSet key val rest

/-- Modelled from the spec: the records after the one under `key` is dropped;
nothing to do when there is none. -/
def diskDelete (key : String) : List (String × Stored) → List (String × Stored)
  | [] => []
  | (k, v) :: rest => if k = key then diskDelete key rest else (k, v) :: diskDelete key rest

/-- Modelled from the spec: the length of a key in bytes (UTF-8). -/
def byteLen : List Char → Nat
  | [] => 0
  | c :: cs =>
    (if c.toNat < 128 then 1 else if c.toNat < 2048 then 2 else if c.toNat < 65536 then 3 else 4)
      + byteLen cs

/-- Modelled from the spec: the longest key the engine takes, in bytes. -/
def maxKeySize : Nat := 65000

/-- Modelled from the spec: the start of the keys the engine keeps for itself. -/
def reservedStart : List Char := "!badger!".data

/-- Modelled from the spec: the engine's test of a key that is written or
deleted.  It refuses the empty key, a key that starts with `reservedStart`, and
a key of more than `maxKeySize` bytes, in this order. -/
def checkKey (key : String) : Option Error :=
  if key.data = [] then some .ErrEmptyKey
  else if reservedStart.isPrefixOf key.data then some .ErrInvalidKey
  else if maxKeySize < byteLen key.data then some .ErrKeySize
  else none

/-- Modelled from the spec: the engine's `get` (`txn.Get(key)`).  It refuses
the empty key; for any other key it gives the value or the not-found error. -/
def txnGet (key : String) (disk : List (String × Stored)) : Res Stored :=
  if key.data = [] then .error .ErrEmptyKey
  else
    match diskGet key disk with
    | none => .error .ErrKeyNotFound
    | some v => .ok v

/-- Modelled from the spec: the engine's `set` (`txn.Set(key, val)`) in a
read-write transaction that commits.  Limits on the size of a value or of a
transaction are not represented. -/
def txnSet (key : String) (val : Stored) (disk : List (String × Stored)) :
    Res (List (String × Stored)) :=
  match checkKey key with
  | some e => .error e
  | none => .ok (diskSet key val disk)

/-- Modelled from the spec: the engine's `delete` (`txn.Delete(key)`) in a
read-write transaction that commits. -/
def txnDelete (key : String) (disk : List (String × Stored)) :
    Res (List (String × Stored)) :=
  match checkKey key with
  | some e => .error e
  | none => .ok (diskDelete key disk)

/-- Modelled from the spec: the engine's open (`badger.Open`), which returns
the engine's error or a handle that carries the options. -/
def badgerOpen {T : Type} (D : Deps T) (opts : Options) : Res DB :=
  match D.OpenErr opts with
  | some e => .error e
  | none => .ok { opt := opts }

/-! ## Package `datastore` -/

/-- Function `NewObject`; the argument `gen` is what `uuid.NewUUID` returns
(`none` when it fails). -/
def NewObject {T : Type} (gen : Option String) (data : T) : Res (Object T) :=
  match gen with
  | none => .error .uuid
  | some u =>
    .ok { UUID := u, Rev := "0-0", History := [], Data := data, Environment := "", Typ := "" }

/-- Call `json.Marshal(obj)` on an envelope: it fails exactly when the payload
does not marshal. -/
def marshalObject {T : Type} (D : Deps T) (obj : Object T) : Option Stored :=
  match D.Marshal obj.Data with
  | none => none
  | some d =>
    some (.envelope
      { uuid := obj.UUID, rev := obj.Rev, history := obj.History, data := d,
        env := obj.Environment, typ := obj.Typ })

/-- Function `convertToObject`: `json.Unmarshal` of an engine value into an
`Object[T]`. -/
def convertToObject {T : Type} (D : Deps T) (b : Stored) : Res (Object T) :=
  match b with
  | .other _ => .error .unmarshal
  | .envelope e =>
    match D.Unmarshal e.data with
    | none => .error .unmarshal
    | some d =>
      .ok { UUID := e.uuid, Rev := e.rev, History := e.history, Data := d,
            Environment := e.env, Typ := e.typ }

/-- The sequence number `getRev` reads off a revision:
`strconv.ParseInt(strings.Split(rev, "-")[0], 10, 0)`. -/
def seqOf (rev : String) : Res Int :=
  ParseInt ((Split '-' rev.data).headD [])

/-- Function `getRev`. -/
def getRev {T : Type} (D : Deps T) (currRev : String) (o : Object T) : Res String :=
  match D.Marshal o.Data with
  | none => .error .marshal
  | some bData =>
    let hash := EncodeToString (D.Sum256 bData)
    let next : Res Int :=
      if currRev ≠ "" then
        match seqOf currRev with
        | .ok currIt => .ok (wrapInt (currIt + 1))
        | .error e => .error e
        | .panic => .panic
      else .ok 1
    match next with
    | .ok it => .ok (String.mk (fmtInt it ++ '-' :: hash))
    | .error e => .error e
    | .panic => .panic

/-- Method `openConn`.  `once.Do` runs its function on the first call only; the
variable `connErr` is local to each call. -/
def openConn {T : Type} (D : Deps T) (location : String) (readonly : Bool) (w : World) :
    Res (Option driver) × World :=
  if w.once then
    -- `once.Do` does nothing, `connErr` is still nil: `return instance, nil`
    (.ok w.inst, w)
  else
    let opts := { DefaultOptions location with Logger := false }
    -- the statement `opts.WithReadOnly(true)` drops the options it returns
    let _dropped : Options := if readonly then opts.WithReadOnly true else opts
    match badgerOpen D opts with
    | .ok conn => (.ok (some { conn := conn }), { w with once := true, inst := some { conn := conn } })
    | .error e => (.error e, { w with once := true })
    | .panic => (.panic, { w with once := true })

/-- The `append` of `Write`.  The length of a slice is an `int`: the runtime
does not return from an `append` that would pass `maxInt` elements
(growslice: len out of range). -/
def growHistory (history : List String) (rev : String) : Option (List String) :=
  if history.length < maxInt then some (history ++ [rev]) else none

/-- Method `Read`. -/
def Read {T : Type} (D : Deps T) (location : String) (uuid : String) (w : World) :
    Res (Object T) × World :=
  match openConn D location true w with
  | (.error e, w1) => (.error e, w1)
  | (.panic, w1) => (.panic, w1)
  | (.ok none, w1) => (.panic, w1)
  | (.ok (some _db), w1) =>
    match txnGet uuid w1.disk with
    | .error e => (.error e, w1)
    | .panic => (.panic, w1)
    | .ok vCopy => (convertToObject D vCopy, w1)

/-- Method `Write`.  What it prints is not part of the model. -/
def Write {T : Type} (D : Deps T) (location : String) (uuid : String) (obj : Object T)
    (w : World) : Res Unit × World :=
  match getRev D obj.Rev obj with
  | .error e => (.error e, w)
  | .panic => (.panic, w)
  | .ok rev =>
    match growHistory obj.History rev with
    | none => (.panic, w)
    | some history =>
      let obj := { obj with History := history, Rev := rev }
      match marshalObject D obj with
      | none => (.error .marshal, w)
      | some bData =>
        match openConn D location false w with
        | (.error e, w1) => (.error e, w1)
        | (.panic, w1) => (.panic, w1)
        | (.ok none, w1) => (.panic, w1)
        | (.ok (some db), w1) =>
          if db.conn.opt.ReadOnly then (.error .ErrReadOnlyTxn, w1)
          else
            match txnSet uuid bData w1.disk with
            | .error e => (.error e, w1)
            | .panic => (.panic, w1)
            | .ok disk => (.ok (), { w1 with disk := disk })

/-- Method `Delete`. -/
def Delete {T : Type} (D : Deps T) (location : String) (uuid : String) (w : World) :
    Res Unit × World :=
  match openConn D location false w with
  | (.error e, w1) => (.error e, w1)
  | (.panic, w1) => (.panic, w1)
  | (.ok none, w1) => (.panic, w1)
  | (.ok (some db), w1) =>
    if db.conn.opt.ReadOnly then (.error .ErrReadOnlyTxn, w1)
    else
      match txnDelete uuid w1.disk with
      | .error e => (.error e, w1)
      | .panic => (.panic, w1)
      | .ok disk => (.ok (), { w1 with disk := disk })

/-- The iterator loop of `ReadAll`: `uuids` is what has been collected so far;
a value that does not convert ends the scan with its error. -/
def scan {T : Type} (D : Deps T) (env dType : String) :
    List (String × Stored) → List String → Res (List String)
  | [], uuids => .ok uuids
  | (_, b) :: rest, uuids =>
    match convertToObject D b with
    | .error e => .error e
    | .panic => .panic
    | .ok obj =>
      if obj.Environment ≠ env then scan D env dType rest uuids
      else if dType ≠ "all" ∧ obj.Typ ≠ dType then scan D env dType rest uuids
      else scan D env dType rest (uuids ++ [obj.UUID])

/-- Method `ReadAll`. -/
def ReadAll {T : Type} (D : Deps T) (location : String) (env dType : String) (w : World) :
    Res (List String) × World :=
  match openConn D location true w with
  | (.error e, w1) => (.error e, w1)
  | (.panic, w1) => (.panic, w1)
  | (.ok none, w1) => (.panic, w1)
  | (.ok (some _db), w1) => (scan D env dType w1.disk [], w1)

/-! ## Definitions used to state the properties -/

/-- The connection serves reads and writes: `openConn` returns a handle that
is neither nil nor read-only. -/
def connected {T : Type} (D : Deps T) (location : String) (w : World) : Bool :=
  match (openConn D location false w).1 with
  | .ok (some db) => !db.conn.opt.ReadOnly
  | _ => false

/-- The scan filter as the specification words it: the environment is `env`,
and the type is `dType` unless `dType` is the literal "all". -/
def passes {T : Type} (env dType : String) (o : Object T) : Bool :=
  o.Environment == env && (dType == "all" || o.Typ == dType)

/-- Every stored value converted, in the order of the records; `none` when one
of them does not convert. -/
def decodeAll {T : Type} (D : Deps T) : List (String × Stored) → Option (List (Object T))
  | [] => some []
  | (_, b) :: rest =>
    match convertToObject D b, decodeAll D rest with
    | .ok o, some os => some (o :: os)
    | _, _ => none

/-- The revision stored under a key. -/
def storedRev (uuid : String) (w : World) : Option String :=
  match diskGet uuid w.disk with
  | some (.envelope e) => some e.rev
  | _ => none

/-- Chained writes to one identifier: `obj` is written; then, for every edit
in turn, the object that `Read` returns is written with its payload edited.
The result lists, per write, the payload written and the revision found in the
store after it, and gives the final world; `none` when a call fails. -/
def chain {T : Type} (D : Deps T) (location uuid : String) :
    List (T → T) → Object T → World → Option (List (T × String) × World)
  | [], obj, w =>
    match Write D location uuid obj w with
    | (.ok (), w1) =>
      match storedRev uuid w1 with
      | some rev => some ([(obj.Data, rev)], w1)
      | none => none
    | _ => none
  | edit :: edits, obj, w =>
    match Write D location uuid obj w with
    | (.ok (), w1) =>
      match storedRev uuid w1, Read D location uuid w1 with
      | some rev, (.ok r, w2) =>
        match chain D location uuid edits { r with Data := edit r.Data } w2 with
        | some (log, w3) => some ((obj.Data, rev) :: log, w3)
        | none => none
      | _, _ => none
    | _ => none

/-- A call that changes the store. -/
inductive Op (T : Type) where
  | write : String → Object T → Op T
  | delete : String → Op T

/-- The world after one call, whatever the call returns. -/
def Op.apply {T : Type} (D : Deps T) (location : String) (w : World) : Op T → World
  | .write uuid obj => (Write D location uuid obj w).2
  | .delete uuid => (Delete D location uuid w).2

/-- The world after a sequence of calls. -/
def run {T : Type} (D : Deps T) (location : String) (ops : List (Op T)) (w : World) : World :=
  ops.foldl (Op.apply D location) w

/-- A call that stores an object stores it under the object's own UUID. -/
def Op.byUUID {T : Type} : Op T → Bool
  | .write uuid obj => uuid == obj.UUID
  | .delete _ => true

/-- Every record is an envelope whose `uuid` field is its key. -/
def keyedByUUID (disk : List (String × Stored)) : Bool :=
  disk.all fun kv =>
    match kv.2 with
    | .envelope e => e.uuid == kv.1
    | .other _ => false

/-- No record is stored under the empty key. -/
def keysNonempty (disk : List (String × Stored)) : Bool :=
  disk.all fun kv => !kv.1.data.isEmpty

/-- The records are in strictly increasing key order. -/
def sortedKeys : List (String × Stored) → Bool
  | [] => true
  | (k, _) :: rest => rest.all (fun kv => keyLt k.data kv.1.data) && sortedKeys rest

/-! ## Concrete instances -/

/-- Payloads that are JSON text already (`json.RawMessage`): marshalling and
unmarshalling return the text.  The digest is a stand-in, the code points of
the text as bytes; the engine opens whatever the options. -/
def rawDeps : Deps String :=
  { Marshal := some, Unmarshal := some,
    Sum256 := fun s => s.data.map fun c => c.toNat % 256,
    OpenErr := fun _ => none }

/-- The object of the configuration scenario, as `NewObject` and the caller's
three assignments leave it. -/
def configObject : Object String :=
  { UUID := "config", Rev := "0-0", History := [], Data := "\x7b\"name\":\"node1\"\x7d",
    Environment := "self", Typ := "config" }

/-- A second object, of another environment. -/
def tenantObject : Object String :=
  { UUID := "t-1", Rev := "0-0", History := [], Data := "\x7b\x7d", Environment := "tenant-a",
    Typ := "config" }

/-- The store after each of the two objects was written under its UUID. -/
def twoObjects : World :=
  run rawDeps "/db" [.write "t-1" tenantObject, .write "config" configObject] (World.start [])

/-- The world after `configObject` was written under "config" and the object
read back was written again, payload unchanged. -/
def writtenTwice : World :=
  { once := true,
    inst := some { conn := { opt := { Dir := "/db", ReadOnly := false, Logger := false } } },
    disk := [("config", .envelope
      { uuid := "config", rev := "2-7b226e616d65223a226e6f646531227d",
        history := ["1-7b226e616d65223a226e6f646531227d", "2-7b226e616d65223a226e6f646531227d"],
        data := "\x7b\"name\":\"node1\"\x7d", env := "self", typ := "config" })] }

/-- An engine that does not open. -/
def brokenDeps : Deps String :=
  { rawDeps with OpenErr := fun _ => some (.open_ 1) }

/-! ## Text lemmas -/

theorem digit_char (u : Nat) (h : u < 10) :
    isDigit (Char.ofNat (48 + u)) = true ∧ (Char.ofNat (48 + u)).toNat - 48 = u := by
  interval_cases u <;> decide

theorem isDigit_ne_minus {c : Char} (h : isDigit c = true) : c ≠ '-' ∧ c ≠ '+' := by
  constructor <;> (rintro rfl; revert h; decide)

theorem fmtDigits_digits (fuel u : Nat) (acc : List Char) :
    ∀ c ∈ fmtDigits fuel u acc, isDigit c = true ∨ c ∈ acc := by
  induction fuel generalizing u acc with
  | zero => intro c hc; exact Or.inr hc
  | succ fuel ih =>
    intro c hc
    unfold fmtDigits at hc
    split at hc
    · rename_i hu
      rcases List.mem_cons.mp hc with rfl | hc
      · exact Or.inl (digit_char u hu).1
      · exact Or.inr hc
    · rcases ih _ _ c hc with h | h
      · exact Or.inl h
      · rcases List.mem_cons.mp h with rfl | h
        · exact Or.inl (digit_char _ (Nat.mod_lt _ (by decide))).1
        · exact Or.inr h

theorem parseDigits_fmtDigits (fuel : Nat) :
    ∀ (u : Nat) (acc : List Char), u < 10 ^ fuel →
      parseDigits (fmtDigits fuel u acc) 0 = parseDigits acc u := by
  induction fuel with
  | zero =>
    intro u acc hu
    have : u = 0 := by simpa using hu
    subst this; rfl
  | succ fuel ih =>
    intro u acc hu
    unfold fmtDigits
    split
    · rename_i h10
      simp [parseDigits, digit_char u h10]
    · rename_i h10
      have hlt : u / 10 < 10 ^ fuel := by
        rw [Nat.div_lt_iff_lt_mul (by decide)]
        calc u < 10 ^ (fuel + 1) := hu
          _ = 10 ^ fuel * 10 := by ring
      rw [ih _ _ hlt]
      have hd := digit_char (u % 10) (Nat.mod_lt _ (by decide))
      simp only [parseDigits, hd.1, hd.2, if_true]
      congr 1
      omega

theorem fmtDigits_ne_nil (fuel u : Nat) (acc : List Char) (h : acc ≠ [] ∨ 0 < fuel) :
    fmtDigits fuel u acc ≠ [] := by
  induction fuel generalizing u acc with
  | zero =>
    rcases h with h | h
    · exact h
    · exact absurd h (by decide)
  | succ fuel ih =>
    unfold fmtDigits
    split
    · simp
    · exact ih _ _ (Or.inl (by simp))

theorem fmtNat_digits (u : Nat) : ∀ c ∈ fmtNat u, isDigit c = true := by
  intro c hc
  rcases fmtDigits_digits _ _ _ c hc with h | h
  · exact h
  · simp at h

theorem parseDigits_fmtNat (u : Nat) : parseDigits (fmtNat u) 0 = some u := by
  unfold fmtNat
  have hlt : u < 10 ^ (u + 1) :=
    lt_trans (Nat.lt_pow_self (show 1 < 10 by decide) u) (Nat.pow_lt_pow_right (by decide) (Nat.lt_succ_self u))
  rw [parseDigits_fmtDigits (u + 1) u [] hlt]
  rfl

theorem ParseInt_fmtNat (u : Nat) (h : u < 2 ^ 63) : ParseInt (fmtNat u) = .ok (u : Int) := by
  have hne := fmtDigits_ne_nil (u + 1) u [] (Or.inr (Nat.succ_pos _))
  have hd := fmtNat_digits u
  have hp := parseDigits_fmtNat u
  unfold fmtNat at hd hp
  cases hl : fmtDigits (u + 1) u [] with
  | nil => exact absurd hl hne
  | cons c cs =>
    rw [hl] at hd hp
    have hc := isDigit_ne_minus (hd c (List.mem_cons_self _ _))
    unfold fmtNat
    rw [hl]
    have h' : u < 9223372036854775808 := by simpa using h
    simp [ParseInt, hc.1, hc.2, hp, h']

theorem Split_head (sep : Char) (a b : List Char) (h : sep ∉ a) :
    (Split sep (a ++ sep :: b)).headD [] = a := by
  induction a with
  | nil => simp [Split]
  | cons c cs ih =>
    have hc : c ≠ sep := fun e => h (e ▸ List.mem_cons_self _ _)
    have hcs : sep ∉ cs := fun e => h (List.mem_cons_of_mem _ e)
    have := ih hcs
    simp only [List.cons_append, Split, hc, if_false]
    cases hs : Split sep (cs ++ sep :: b) with
    | nil => rw [hs] at this; simp at this; simp [this]
    | cons p ps => rw [hs] at this; simp at this; simp [this]


theorem wrapInt_id (x : Int) (h1 : -(2 ^ 63) ≤ x) (h2 : x < 2 ^ 63) : wrapInt x = x := by
  unfold wrapInt
  omega

theorem getRev_data_only {T : Type} (D : Deps T) (currRev : String) (o o' : Object T)
    (h : o'.Data = o.Data) : getRev D currRev o' = getRev D currRev o := by
  unfold getRev
  rw [h]

theorem seqOf_mk (m : Nat) (hm : m < 2 ^ 63) (hash : List Char) :
    seqOf (String.mk (fmtNat m ++ '-' :: hash)) = .ok (m : Int) := by
  unfold seqOf
  have hno : '-' ∉ fmtNat m := fun hin => (isDigit_ne_minus (fmtNat_digits m _ hin)).1 rfl
  rw [Split_head '-' _ _ hno]
  exact ParseInt_fmtNat m hm

theorem seqOf_empty : seqOf "" = .error .ErrSyntax := by decide

theorem getRev_of_seq {T : Type} (D : Deps T) (currRev : String) (o : Object T) (b : String)
    (n : Int) (hb : D.Marshal o.Data = some b) (hp : seqOf currRev = .ok n) :
    getRev D currRev o =
      .ok (String.mk (fmtInt (wrapInt (n + 1)) ++ '-' :: EncodeToString (D.Sum256 b))) := by
  have hne : currRev ≠ "" := by
    rintro rfl
    rw [seqOf_empty] at hp
    cases hp
  simp only [getRev, hb, hp, hne, ne_eq, not_false_eq_true, if_true]


/-- With an empty prior revision the sequence number is 1. -/
theorem getRev_empty {T : Type} (D : Deps T) (o : Object T) (b : String)
    (hb : D.Marshal o.Data = some b) :
    getRev D "" o = .ok ("1-" ++ String.mk (EncodeToString (D.Sum256 b))) := by
  simp only [getRev, hb]
  rfl

/-- Below the largest `int` the sequence number goes up by one. -/
theorem getRev_succ {T : Type} (D : Deps T) (currRev : String) (o : Object T) (b : String)
    (n : Int) (hb : D.Marshal o.Data = some b) (hp : seqOf currRev = .ok n)
    (h0 : 0 ≤ n) (hlt : n < (maxInt : Int)) :
    getRev D currRev o
        = .ok (String.mk (fmtInt (n + 1) ++ '-' :: EncodeToString (D.Sum256 b)))
      ∧ seqOf (String.mk (fmtInt (n + 1) ++ '-' :: EncodeToString (D.Sum256 b)))
          = .ok (n + 1) := by
  have hmax : (maxInt : Int) = 2 ^ 63 - 1 := by decide
  rw [hmax] at hlt
  have hw : wrapInt (n + 1) = n + 1 := wrapInt_id _ (by omega) (by omega)
  refine ⟨by rw [getRev_of_seq D currRev o b n hb hp, hw], ?_⟩
  obtain ⟨m, hm⟩ := Int.eq_ofNat_of_zero_le (show 0 ≤ n + 1 by omega)
  rw [hm]
  have hm63 : m < 2 ^ 63 := by omega
  exact seqOf_mk m hm63 _

/-! ## The engine and the connection -/


theorem diskGet_diskSet (key : String) (val : Stored) (disk : List (String × Stored)) :
    diskGet key (diskSet key val disk) = some val := by
  induction disk with
  | nil => simp [diskSet, diskGet]
  | cons kv rest ih =>
    obtain ⟨k, v⟩ := kv
    unfold diskSet
    split
    · simp [diskGet]
    · rename_i hk
      split
      · simp [diskGet]
      · simp [diskGet, hk, ih]

theorem diskGet_diskDelete (key : String) (disk : List (String × Stored)) :
    diskGet key (diskDelete key disk) = none := by
  induction disk with
  | nil => rfl
  | cons kv rest ih =>
    obtain ⟨k, v⟩ := kv
    unfold diskDelete
    split
    · exact ih
    · rename_i hk
      simp [diskGet, hk, ih]

theorem diskDelete_absent (key : String) (disk : List (String × Stored))
    (h : diskGet key disk = none) : diskDelete key disk = disk := by
  induction disk with
  | nil => rfl
  | cons kv rest ih =>
    obtain ⟨k, v⟩ := kv
    unfold diskGet at h
    split at h
    · cases h
    · rename_i hk
      simp [diskDelete, hk, ih h]

theorem openConn_readonly {T : Type} (D : Deps T) (location : String) (w : World) :
    openConn D location true w = openConn D location false w := by
  unfold openConn
  rfl

/-- After a fired `once` the call returns the cached handle and changes nothing. -/
theorem openConn_cached {T : Type} (D : Deps T) (location : String) (readonly : Bool)
    (w : World) (h : w.once = true) : openConn D location readonly w = (.ok w.inst, w) := by
  simp [openConn, h]

theorem openConn_cases {T : Type} (D : Deps T) (location : String) (readonly : Bool)
    (w w1 : World) (db : driver)
    (h : openConn D location readonly w = (.ok (some db), w1)) :
    w1.once = true ∧ w1.inst = some db ∧ w1.disk = w.disk
      ∧ (w.once = false → db.conn.opt.ReadOnly = false) := by
  unfold openConn at h
  split at h
  · rename_i ho
    simp only [Prod.mk.injEq, Res.ok.injEq] at h
    obtain ⟨h1, h2⟩ := h
    subst h2
    exact ⟨ho, h1, rfl, fun hf => by rw [ho] at hf; cases hf⟩
  · simp only [badgerOpen] at h
    split at h
    · rename_i conn hc
      simp only [Prod.mk.injEq, Res.ok.injEq, Option.some.injEq] at h
      obtain ⟨h1, h2⟩ := h
      subst h2 h1
      refine ⟨rfl, rfl, rfl, fun _ => ?_⟩
      split at hc
      · cases hc
      · cases hc
        rfl
    · simp at h
    · simp at h


theorem connected_elim {T : Type} (D : Deps T) (location : String) (w : World)
    (h : connected D location w = true) (readonly : Bool) :
    ∃ db w1, openConn D location readonly w = (.ok (some db), w1)
      ∧ db.conn.opt.ReadOnly = false ∧ w1.once = true ∧ w1.inst = some db
      ∧ w1.disk = w.disk := by
  have hro : openConn D location readonly w = openConn D location false w := by
    cases readonly
    · rfl
    · exact openConn_readonly D location w
  unfold connected at h
  rw [hro]
  cases ho : openConn D location false w with
  | mk r w1 =>
    rw [ho] at h
    cases r with
    | ok d =>
      cases d with
      | none => simp at h
      | some db =>
        have := openConn_cases D location false w w1 db ho
        refine ⟨db, w1, rfl, by simpa using h, this.1, this.2.1, this.2.2.1⟩
    | error e => simp at h
    | panic => simp at h

theorem connected_of_cached {T : Type} (D : Deps T) (location : String) (w : World) (db : driver)
    (h1 : w.once = true) (h2 : w.inst = some db) (h3 : db.conn.opt.ReadOnly = false) :
    connected D location w = true := by
  simp [connected, openConn_cached D location false w h1, h2, h3]

theorem checkKey_ne (key : String) (h : checkKey key = none) : key.data ≠ [] := by
  intro he
  simp [checkKey, he] at h

theorem data_ne_of_ne (key : String) (h : key ≠ "") : key.data ≠ [] :=
  fun he => h (String.ext he)

theorem txnGet_of_ne (key : String) (disk : List (String × Stored)) (h : key.data ≠ []) :
    txnGet key disk =
      (match diskGet key disk with
        | none => .error .ErrKeyNotFound
        | some v => .ok v) := by
  simp only [txnGet, h, if_false]

theorem byteLen_replicate (c : Char) (hc : c.toNat < 128) (n : Nat) :
    byteLen (List.replicate n c) = n := by
  induction n with
  | zero => rfl
  | succ n ih =>
    rw [List.replicate_succ, byteLen, ih, if_pos hc]
    omega

/-- The engine refuses a key of more than `maxKeySize` one-byte characters. -/
theorem checkKey_long (c : Char) (n : Nat) (hc : c.toNat < 128) (h1 : c ≠ '!')
    (hn : maxKeySize ≤ n) :
    checkKey (String.mk (List.replicate (n + 1) c)) = some .ErrKeySize := by
  have hlen := byteLen_replicate c hc (n + 1)
  rw [List.replicate_succ] at hlen
  have hp : reservedStart.isPrefixOf (c :: List.replicate n c) = false := by
    have hr : reservedStart = '!' :: "badger!".data := rfl
    have hb : ('!' == c) = false := by
      rw [beq_eq_false_iff_ne]
      exact fun h => h1 h.symm
    rw [hr, List.isPrefixOf, hb, Bool.false_and]
  unfold checkKey
  rw [List.replicate_succ]
  simp only [reduceCtorEq, if_false, hp, Bool.false_eq_true, hlen]
  rw [if_pos (by omega)]

theorem Read_connected {T : Type} (D : Deps T) (location uuid : String) (w : World)
    (h : connected D location w = true) (hne : uuid.data ≠ []) :
    (Read D location uuid w).1 =
      (match diskGet uuid w.disk with
        | none => .error .ErrKeyNotFound
        | some v => convertToObject D v) := by
  obtain ⟨db, w1, ho, -, -, -, hd⟩ := connected_elim D location w h true
  simp only [Read, ho, hd, txnGet_of_ne uuid w.disk hne]
  cases diskGet uuid w.disk <;> rfl

/-- The engine refuses to look up the empty key. -/
theorem Read_empty {T : Type} (D : Deps T) (location : String) (w : World)
    (h : connected D location w = true) :
    (Read D location "" w).1 = (.error .ErrEmptyKey : Res (Object T)) := by
  obtain ⟨db, w1, ho, -, -, -, hd⟩ := connected_elim D location w h true
  simp only [Read, ho, hd]
  rfl

theorem Delete_connected {T : Type} (D : Deps T) (location uuid : String) (w : World)
    (h : connected D location w = true) (hkey : checkKey uuid = none) :
    (Delete D location uuid w).1 = .ok ()
      ∧ (Delete D location uuid w).2.disk = diskDelete uuid w.disk
      ∧ connected D location (Delete D location uuid w).2 = true := by
  obtain ⟨db, w1, ho, hro, h1, h2, hd⟩ := connected_elim D location w h false
  simp only [Delete, ho, hro, hd, txnDelete, hkey]
  refine ⟨rfl, rfl, ?_⟩
  exact connected_of_cached D location _ db h1 h2 hro

/-- A key the engine refuses is not deleted: `Delete` returns the engine's
error and the records stay. -/
theorem Delete_refused {T : Type} (D : Deps T) (location uuid : String) (w : World)
    (h : connected D location w = true) (e : Error) (hkey : checkKey uuid = some e) :
    (Delete D location uuid w).1 = .error e
      ∧ (Delete D location uuid w).2.disk = w.disk := by
  obtain ⟨db, w1, ho, hro, h1, h2, hd⟩ := connected_elim D location w h false
  simp only [Delete, ho, hro, hd, txnDelete, hkey]
  exact ⟨rfl, hd⟩

theorem ReadAll_connected {T : Type} (D : Deps T) (location env dType : String) (w : World)
    (h : connected D location w = true) :
    (ReadAll D location env dType w).1 = scan D env dType w.disk [] := by
  obtain ⟨db, w1, ho, -, -, -, hd⟩ := connected_elim D location w h true
  simp only [ReadAll, ho, hd]

theorem Write_ok {T : Type} (D : Deps T) (location uuid : String) (obj : Object T)
    (w : World) (h : (Write D location uuid obj w).1 = .ok ()) :
    ∃ rev b, getRev D obj.Rev obj = .ok rev ∧ D.Marshal obj.Data = some b
      ∧ obj.History.length < maxInt
      ∧ (Write D location uuid obj w).2.disk =
          diskSet uuid (.envelope
            { uuid := obj.UUID, rev := rev, history := obj.History ++ [rev], data := b,
              env := obj.Environment, typ := obj.Typ }) w.disk
      ∧ connected D location (Write D location uuid obj w).2 = true := by
  unfold Write at h ⊢
  cases hr : getRev D obj.Rev obj with
  | error e => rw [hr] at h; cases h
  | panic => rw [hr] at h; cases h
  | ok rev =>
    simp only [hr] at h ⊢
    unfold growHistory at h ⊢
    by_cases hlen : obj.History.length < maxInt
    · rw [if_pos hlen] at h ⊢
      simp only [marshalObject] at h ⊢
      cases hm : D.Marshal obj.Data with
      | none => rw [hm] at h; cases h
      | some b =>
        simp only [hm] at h ⊢
        cases ho : openConn D location false w with
        | mk r w1 =>
          simp only [ho] at h ⊢
          cases r with
          | error e => cases h
          | panic => cases h
          | ok d =>
            cases d with
            | none => cases h
            | some db =>
              simp only at h ⊢
              have hc := openConn_cases D location false w w1 db ho
              cases hro : db.conn.opt.ReadOnly with
              | true => rw [hro] at h; cases h
              | false =>
                rw [hro] at h
                simp only [Bool.false_eq_true, if_false, txnSet] at h ⊢
                cases hk : checkKey uuid with
                | some e => rw [hk] at h; cases h
                | none =>
                  refine ⟨rev, b, rfl, rfl, hlen, ?_, ?_⟩
                  · simp only
                    rw [hc.2.2.1]
                  · simp only
                    exact connected_of_cached D location _ db hc.1 hc.2.1 hro
    · rw [if_neg hlen] at h
      cases h

/-- A `Write` that succeeds was given a key the engine takes. -/
theorem Write_ok_key {T : Type} (D : Deps T) (location uuid : String) (obj : Object T)
    (w : World) (h : (Write D location uuid obj w).1 = .ok ()) : checkKey uuid = none := by
  unfold Write at h
  cases hr : getRev D obj.Rev obj with
  | error e => rw [hr] at h; cases h
  | panic => rw [hr] at h; cases h
  | ok rev =>
    simp only [hr] at h
    cases hg : growHistory obj.History rev with
    | none => rw [hg] at h; cases h
    | some history =>
      simp only [hg] at h
      cases hm : marshalObject D { obj with History := history, Rev := rev } with
      | none => rw [hm] at h; cases h
      | some bData =>
        simp only [hm] at h
        cases ho : openConn D location false w with
        | mk r w1 =>
          simp only [ho] at h
          cases r with
          | error e => cases h
          | panic => cases h
          | ok d =>
            cases d with
            | none => cases h
            | some db =>
              simp only at h
              cases hro : db.conn.opt.ReadOnly with
              | true => rw [hro] at h; cases h
              | false =>
                rw [hro] at h
                simp only [Bool.false_eq_true, if_false, txnSet] at h
                cases hk : checkKey uuid with
                | some e => rw [hk] at h; cases h
                | none => rfl


/-- The options `openConn` hands to `badger.Open`. -/
theorem openConn_fresh {T : Type} (D : Deps T) (location : String) (readonly : Bool)
    (w : World) (h : w.once = false) :
    openConn D location readonly w =
      (match D.OpenErr { DefaultOptions location with Logger := false } with
        | some e => (.error e, { w with once := true })
        | none =>
          (.ok (some { conn := { opt := { DefaultOptions location with Logger := false } } }),
            { w with once := true,
                     inst := some { conn := { opt := { DefaultOptions location with Logger := false } } } })) := by
  simp only [openConn, h, badgerOpen]
  cases D.OpenErr { DefaultOptions location with Logger := false } <;> rfl

/-- The loop of `ReadAll` keeps what it had and adds, in order, the UUIDs of
the objects that pass the filter. -/
theorem scan_eq_filter {T : Type} (D : Deps T) (env dType : String) :
    ∀ (disk : List (String × Stored)) (objs : List (Object T)) (uuids : List String),
      decodeAll D disk = some objs →
      scan D env dType disk uuids
        = .ok (uuids ++ (objs.filter (passes env dType)).map (fun o => o.UUID)) := by
  intro disk
  induction disk with
  | nil =>
    intro objs uuids h
    simp only [decodeAll, Option.some.injEq] at h
    subst h
    simp [scan]
  | cons kv rest ih =>
    intro objs uuids h
    obtain ⟨k, b⟩ := kv
    unfold decodeAll at h
    cases hc : convertToObject D b with
    | error e => simp [hc] at h
    | panic => simp [hc] at h
    | ok o =>
      cases hr : decodeAll D rest with
      | none => simp [hc, hr] at h
      | some os =>
        simp only [hc, hr, Option.some.injEq] at h
        subst h
        unfold scan
        simp only [hc]
        by_cases he : o.Environment = env
        · by_cases ht : dType = "all" ∨ o.Typ = dType
          · have hp : passes env dType o = true := by
              simp only [passes, Bool.and_eq_true, Bool.or_eq_true, beq_iff_eq]
              exact ⟨he, ht⟩
            have hn : ¬ (dType ≠ "all" ∧ o.Typ ≠ dType) := by
              rintro ⟨h1, h2⟩
              rcases ht with ht | ht
              · exact h1 ht
              · exact h2 ht
            simp only [ne_eq, he, not_true_eq_false, if_false, hn]
            rw [ih os _ hr, List.filter_cons_of_pos hp]
            simp
          · have hp : ¬ passes env dType o = true := by
              simp only [passes, Bool.and_eq_true, Bool.or_eq_true, beq_iff_eq]
              exact fun h => ht h.2
            have hn : dType ≠ "all" ∧ o.Typ ≠ dType := by
              constructor
              · exact fun h => ht (Or.inl h)
              · exact fun h => ht (Or.inr h)
            simp only [ne_eq, he, not_true_eq_false, if_false]
            rw [if_pos hn, ih os _ hr, List.filter_cons_of_neg hp]
        · have hp : ¬ passes env dType o = true := by
            simp only [passes, Bool.and_eq_true, Bool.or_eq_true, beq_iff_eq]
            exact fun h => he h.1
          simp only [ne_eq, he, not_false_eq_true, if_true]
          rw [ih os _ hr, List.filter_cons_of_neg hp]

theorem decodeAll_length {T : Type} (D : Deps T) :
    ∀ (disk : List (String × Stored)) (objs : List (Object T)),
      decodeAll D disk = some objs → objs.length = disk.length := by
  intro disk
  induction disk with
  | nil =>
    intro objs h
    simp only [decodeAll, Option.some.injEq] at h
    subst h
    rfl
  | cons kv rest ih =>
    intro objs h
    obtain ⟨k, b⟩ := kv
    unfold decodeAll at h
    cases hc : convertToObject D b with
    | error e => simp [hc] at h
    | panic => simp [hc] at h
    | ok o =>
      cases hr : decodeAll D rest with
      | none => simp [hc, hr] at h
      | some os =>
        simp only [hc, hr, Option.some.injEq] at h
        subst h
        simp [ih os hr]

theorem fmtInt_succ (j : Nat) : fmtInt ((j : Int) + 1) = fmtNat (j + 1) := by
  have : ((j : Int) + 1) = Int.ofNat (j + 1) := by simp
  rw [this]
  rfl

/-- What a successful `Write` stores when the sequence number of the object's
revision is the length of its history. -/
theorem Write_ok_seq {T : Type} (D : Deps T) (location uuid : String) (obj : Object T)
    (w : World) (hok : (Write D location uuid obj w).1 = .ok ())
    (hseq : seqOf obj.Rev = .ok (obj.History.length : Int)) :
    ∃ b, D.Marshal obj.Data = some b
      ∧ seqOf (String.mk (fmtNat (obj.History.length + 1) ++ '-' :: EncodeToString (D.Sum256 b)))
          = .ok ((obj.History.length + 1 : Nat) : Int)
      ∧ (Write D location uuid obj w).2.disk =
          diskSet uuid (.envelope
            { uuid := obj.UUID,
              rev := String.mk (fmtNat (obj.History.length + 1) ++ '-' :: EncodeToString (D.Sum256 b)),
              history := obj.History ++
                [String.mk (fmtNat (obj.History.length + 1) ++ '-' :: EncodeToString (D.Sum256 b))],
              data := b, env := obj.Environment, typ := obj.Typ }) w.disk
      ∧ connected D location (Write D location uuid obj w).2 = true := by
  obtain ⟨rev, b, hrev, hb, hlen, hdisk, hconn⟩ := Write_ok D location uuid obj w hok
  have hlt : (obj.History.length : Int) < (maxInt : Int) := by exact_mod_cast hlen
  have hn := getRev_succ D obj.Rev obj b _ hb hseq (Int.ofNat_nonneg _) hlt
  rw [fmtInt_succ] at hn
  rw [hn.1] at hrev
  cases hrev
  refine ⟨b, hb, ?_, hdisk, hconn⟩
  rw [hn.2]
  simp

/-- Chained writes from an object whose sequence number is the length of its
history: every write adds one revision, numbered one higher. -/
theorem chain_spec {T : Type} (D : Deps T) (location uuid : String) :
    ∀ (edits : List (T → T)) (obj : Object T) (w w' : World) (log : List (T × String)),
      chain D location uuid edits obj w = some (log, w') →
      seqOf obj.Rev = .ok (obj.History.length : Int) →
      log.length = edits.length + 1
        ∧ (∃ e, diskGet uuid w'.disk = some (.envelope e)
            ∧ e.history = obj.History ++ log.map Prod.snd)
        ∧ ∀ (i : Nat) (p : T) (rev : String), log[i]? = some (p, rev) →
            ∃ b, D.Marshal p = some b
              ∧ rev = String.mk (fmtNat (obj.History.length + i + 1) ++ '-'
                  :: EncodeToString (D.Sum256 b))
              ∧ seqOf rev = .ok ((obj.History.length + i + 1 : Nat) : Int) := by
  intro edits
  induction edits with
  | nil =>
    intro obj w w' log hrun hseq
    unfold chain at hrun
    cases hW : Write D location uuid obj w with
    | mk res w1 =>
      rw [hW] at hrun
      cases res with
      | error e => cases hrun
      | panic => cases hrun
      | ok u =>
        have hok : (Write D location uuid obj w).1 = .ok () := by rw [hW]
        obtain ⟨b, hb, hs, hdisk, -⟩ := Write_ok_seq D location uuid obj w hok hseq
        rw [hW] at hdisk
        have hget := diskGet_diskSet uuid (.envelope
            { uuid := obj.UUID,
              rev := String.mk (fmtNat (obj.History.length + 1) ++ '-' :: EncodeToString (D.Sum256 b)),
              history := obj.History ++
                [String.mk (fmtNat (obj.History.length + 1) ++ '-' :: EncodeToString (D.Sum256 b))],
              data := b, env := obj.Environment, typ := obj.Typ }) w.disk
        rw [← hdisk] at hget
        simp only [storedRev, hget, Option.some.injEq, Prod.mk.injEq] at hrun
        obtain ⟨hl, hw⟩ := hrun
        subst hl hw
        refine ⟨rfl, ⟨_, hget, rfl⟩, ?_⟩
        intro i p rev hi
        cases i with
        | zero =>
          simp only [List.getElem?_cons_zero, Option.some.injEq, Prod.mk.injEq] at hi
          obtain ⟨h1, h2⟩ := hi
          subst h1 h2
          exact ⟨b, hb, rfl, hs⟩
        | succ i => simp at hi
  | cons edit edits ih =>
    intro obj w w' log hrun hseq
    unfold chain at hrun
    cases hW : Write D location uuid obj w with
    | mk res w1 =>
      rw [hW] at hrun
      cases res with
      | error e => cases hrun
      | panic => cases hrun
      | ok u =>
        have hok : (Write D location uuid obj w).1 = .ok () := by rw [hW]
        obtain ⟨b, hb, hs, hdisk, hconn⟩ := Write_ok_seq D location uuid obj w hok hseq
        rw [hW] at hdisk hconn
        have hget := diskGet_diskSet uuid (.envelope
            { uuid := obj.UUID,
              rev := String.mk (fmtNat (obj.History.length + 1) ++ '-' :: EncodeToString (D.Sum256 b)),
              history := obj.History ++
                [String.mk (fmtNat (obj.History.length + 1) ++ '-' :: EncodeToString (D.Sum256 b))],
              data := b, env := obj.Environment, typ := obj.Typ }) w.disk
        rw [← hdisk] at hget
        have hread := Read_connected D location uuid w1 hconn
          (checkKey_ne uuid (Write_ok_key D location uuid obj w hok))
        simp only at hget hread
        rw [hget] at hread
        simp only [storedRev, hget] at hrun
        cases hR : Read D location uuid w1 with
        | mk rres w2 =>
          rw [hR] at hrun hread
          cases rres with
          | error e => cases hrun
          | panic => cases hrun
          | ok r =>
            simp only at hrun hread
            have hr : r.Rev = String.mk (fmtNat (obj.History.length + 1) ++ '-'
                  :: EncodeToString (D.Sum256 b))
                ∧ r.History = obj.History ++ [String.mk (fmtNat (obj.History.length + 1) ++ '-'
                  :: EncodeToString (D.Sum256 b))] := by
              unfold convertToObject at hread
              simp only at hread
              cases hU : D.Unmarshal b with
              | none => rw [hU] at hread; cases hread
              | some d =>
                rw [hU] at hread
                simp only [Res.ok.injEq] at hread
                subst hread
                exact ⟨rfl, rfl⟩
            cases hC : chain D location uuid edits { r with Data := edit r.Data } w2 with
            | none => rw [hC] at hrun; cases hrun
            | some res2 =>
              obtain ⟨log2, w3⟩ := res2
              rw [hC] at hrun
              simp only [Option.some.injEq, Prod.mk.injEq] at hrun
              obtain ⟨hl, hw⟩ := hrun
              subst hl hw
              have hseq2 : seqOf ({ r with Data := edit r.Data } : Object T).Rev
                  = .ok ((({ r with Data := edit r.Data } : Object T).History.length : Nat) : Int) := by
                simp only [hr.1, hr.2, List.length_append, List.length_singleton]
                exact hs
              obtain ⟨h1, ⟨e, he1, he2⟩, h3⟩ := ih _ w2 w3 log2 hC hseq2
              refine ⟨by simp [h1], ⟨e, he1, ?_⟩, ?_⟩
              · rw [he2]
                simp only [hr.2, List.map_cons, List.append_assoc, List.singleton_append]
              · intro i p rev hi
                cases i with
                | zero =>
                  simp only [List.getElem?_cons_zero, Option.some.injEq, Prod.mk.injEq] at hi
                  obtain ⟨h1, h2⟩ := hi
                  subst h1 h2
                  exact ⟨b, hb, rfl, hs⟩
                | succ i =>
                  simp only [List.getElem?_cons_succ] at hi
                  obtain ⟨b2, hb2, hrev2, hs2⟩ := h3 i p rev hi
                  simp only [hr.2, List.length_append, List.length_singleton] at hrev2 hs2
                  have harith : obj.History.length + 1 + i + 1 = obj.History.length + (i + 1) + 1 := by
                    omega
                  rw [harith] at hrev2 hs2
                  exact ⟨b2, hb2, hrev2, hs2⟩

/-! ## Records and their keys -/

theorem openConn_disk {T : Type} (D : Deps T) (location : String) (readonly : Bool) (w : World) :
    (openConn D location readonly w).2.disk = w.disk := by
  unfold openConn
  split
  · rfl
  · simp only [badgerOpen]
    cases D.OpenErr { DefaultOptions location with Logger := false } <;> rfl

theorem Write_disk {T : Type} (D : Deps T) (location uuid : String) (obj : Object T) (w : World) :
    (Write D location uuid obj w).2.disk = w.disk
      ∨ ∃ e, e.uuid = obj.UUID ∧ checkKey uuid = none
          ∧ (Write D location uuid obj w).2.disk = diskSet uuid (.envelope e) w.disk := by
  have hd := openConn_disk D location false w
  unfold Write
  cases getRev D obj.Rev obj with
  | error e => exact Or.inl rfl
  | panic => exact Or.inl rfl
  | ok rev =>
    dsimp only
    cases growHistory obj.History rev with
    | none => exact Or.inl rfl
    | some history =>
      dsimp only
      unfold marshalObject
      cases D.Marshal obj.Data with
      | none => exact Or.inl rfl
      | some b =>
        dsimp only
        cases ho : openConn D location false w with
        | mk r w1 =>
          rw [ho] at hd
          cases r with
          | error e => exact Or.inl hd
          | panic => exact Or.inl hd
          | ok d =>
            cases d with
            | none => exact Or.inl hd
            | some db =>
              dsimp only
              cases db.conn.opt.ReadOnly with
              | true => exact Or.inl hd
              | false =>
                simp only [Bool.false_eq_true, if_false, txnSet]
                simp only at hd
                cases hk : checkKey uuid with
                | some e => exact Or.inl hd
                | none =>
                  refine Or.inr
                    ⟨Envelope.mk obj.UUID rev history b obj.Environment obj.Typ, rfl, rfl, ?_⟩
                  simp only
                  rw [hd]

theorem Delete_disk {T : Type} (D : Deps T) (location uuid : String) (w : World) :
    (Delete D location uuid w).2.disk = w.disk
      ∨ (Delete D location uuid w).2.disk = diskDelete uuid w.disk := by
  have hd := openConn_disk D location false w
  unfold Delete
  cases ho : openConn D location false w with
  | mk r w1 =>
    rw [ho] at hd
    cases r with
    | error e => exact Or.inl hd
    | panic => exact Or.inl hd
    | ok d =>
      cases d with
      | none => exact Or.inl hd
      | some db =>
        dsimp only
        cases db.conn.opt.ReadOnly with
        | true => exact Or.inl hd
        | false =>
          simp only [Bool.false_eq_true, if_false, txnDelete]
          simp only at hd
          cases hk : checkKey uuid with
          | some e => exact Or.inl hd
          | none =>
            refine Or.inr ?_
            simp only
            rw [hd]

theorem keyedByUUID_diskSet (key : String) (e : Envelope) (he : e.uuid = key)
    (disk : List (String × Stored)) (h : keyedByUUID disk = true) :
    keyedByUUID (diskSet key (.envelope e) disk) = true := by
  induction disk with
  | nil => simp [diskSet, keyedByUUID, he]
  | cons kv rest ih =>
    obtain ⟨k, v⟩ := kv
    simp only [keyedByUUID, List.all_cons, Bool.and_eq_true] at h ih ⊢
    unfold diskSet
    split
    · simp only [List.all_cons, Bool.and_eq_true]
      exact ⟨by simp [he], h.2⟩
    · split
      · simp only [List.all_cons, Bool.and_eq_true]
        exact ⟨by simp [he], h.1, h.2⟩
      · simp only [List.all_cons, Bool.and_eq_true]
        exact ⟨h.1, ih h.2⟩

theorem keyedByUUID_diskDelete (key : String) (disk : List (String × Stored))
    (h : keyedByUUID disk = true) : keyedByUUID (diskDelete key disk) = true := by
  induction disk with
  | nil => exact h
  | cons kv rest ih =>
    obtain ⟨k, v⟩ := kv
    simp only [keyedByUUID, List.all_cons, Bool.and_eq_true] at h ih ⊢
    unfold diskDelete
    split
    · exact ih h.2
    · simp only [List.all_cons, Bool.and_eq_true]
      exact ⟨h.1, ih h.2⟩

theorem run_keyedByUUID {T : Type} (D : Deps T) (location : String) :
    ∀ (ops : List (Op T)) (w : World), (∀ op ∈ ops, op.byUUID = true) →
      keyedByUUID w.disk = true → keyedByUUID (run D location ops w).disk = true := by
  intro ops
  induction ops with
  | nil => intro w _ h; exact h
  | cons op ops ih =>
    intro w hops h
    have hop := hops op (List.mem_cons_self _ _)
    have hrest : ∀ o ∈ ops, o.byUUID = true := fun o ho => hops o (List.mem_cons_of_mem _ ho)
    simp only [run, List.foldl_cons]
    apply ih _ hrest
    cases op with
    | write uuid obj =>
      simp only [Op.byUUID, beq_iff_eq] at hop
      simp only [Op.apply]
      rcases Write_disk D location uuid obj w with hw | ⟨e, he, -, hw⟩
      · rw [hw]; exact h
      · rw [hw]
        exact keyedByUUID_diskSet uuid e (by rw [he, hop]) _ h
    | delete uuid =>
      simp only [Op.apply]
      rcases Delete_disk D location uuid w with hw | hw
      · rw [hw]; exact h
      · rw [hw]
        exact keyedByUUID_diskDelete uuid _ h

theorem scan_ok_mem {T : Type} (D : Deps T) (env dType : String) :
    ∀ (disk : List (String × Stored)) (uuids ids : List String),
      scan D env dType disk uuids = .ok ids →
      (∀ kv ∈ disk, ∃ o, convertToObject D kv.2 = .ok o)
        ∧ ∀ id ∈ ids, id ∈ uuids
            ∨ ∃ kv ∈ disk, ∃ o, convertToObject D kv.2 = .ok o ∧ o.UUID = id := by
  intro disk
  induction disk with
  | nil =>
    intro uuids ids h
    simp only [scan, Res.ok.injEq] at h
    subst h
    exact ⟨fun kv hkv => absurd hkv (List.not_mem_nil kv), fun id hid => Or.inl hid⟩
  | cons kv rest ih =>
    intro uuids ids h
    obtain ⟨k, b⟩ := kv
    unfold scan at h
    cases hc : convertToObject D b with
    | error e => rw [hc] at h; cases h
    | panic => rw [hc] at h; cases h
    | ok o =>
      rw [hc] at h
      dsimp only at h
      have key : ∀ acc, scan D env dType rest acc = .ok ids → (∀ x ∈ acc, x ∈ uuids ∨ x = o.UUID) →
          (∀ kv ∈ (k, b) :: rest, ∃ o, convertToObject D kv.2 = .ok o)
            ∧ ∀ id ∈ ids, id ∈ uuids
                ∨ ∃ kv ∈ (k, b) :: rest, ∃ o, convertToObject D kv.2 = .ok o ∧ o.UUID = id := by
        intro acc hs hacc
        obtain ⟨h1, h2⟩ := ih acc ids hs
        refine ⟨?_, ?_⟩
        · intro kv hkv
          rcases List.mem_cons.mp hkv with rfl | hkv
          · exact ⟨o, hc⟩
          · exact h1 kv hkv
        · intro id hid
          rcases h2 id hid with hin | ⟨kv, hkv, o2, ho2, hu⟩
          · rcases hacc id hin with hin | rfl
            · exact Or.inl hin
            · exact Or.inr ⟨(k, b), List.mem_cons_self _ _, o, hc, rfl⟩
          · exact Or.inr ⟨kv, List.mem_cons_of_mem _ hkv, o2, ho2, hu⟩
      split at h
      · exact key uuids h (fun x hx => Or.inl hx)
      · split at h
        · exact key uuids h (fun x hx => Or.inl hx)
        · refine key (uuids ++ [o.UUID]) h (fun x hx => ?_)
          rcases List.mem_append.mp hx with hx | hx
          · exact Or.inl hx
          · exact Or.inr (by simpa using hx)

theorem diskGet_of_mem (key : String) (val : Stored) (disk : List (String × Stored))
    (h : (key, val) ∈ disk) : ∃ v, diskGet key disk = some v ∧ (key, v) ∈ disk := by
  induction disk with
  | nil => cases h
  | cons kv rest ih =>
    obtain ⟨k, v⟩ := kv
    unfold diskGet
    by_cases hk : k = key
    · subst hk
      exact ⟨v, by simp, List.mem_cons_self _ _⟩
    · rcases List.mem_cons.mp h with heq | hin
      · exact absurd (congrArg Prod.fst heq).symm hk
      · obtain ⟨v2, h1, h2⟩ := ih hin
        exact ⟨v2, by simp [hk, h1], List.mem_cons_of_mem _ h2⟩

theorem keyedByUUID_mem (disk : List (String × Stored)) (h : keyedByUUID disk = true)
    (k : String) (v : Stored) (hin : (k, v) ∈ disk) : ∃ e, v = .envelope e ∧ e.uuid = k := by
  simp only [keyedByUUID, List.all_eq_true] at h
  have := h (k, v) hin
  cases v with
  | other t => simp at this
  | envelope e => exact ⟨e, rfl, by simpa using this⟩

theorem convertToObject_uuid {T : Type} (D : Deps T) (e : Envelope) (o : Object T)
    (h : convertToObject D (.envelope e) = .ok o) : o.UUID = e.uuid := by
  unfold convertToObject at h
  dsimp only at h
  cases hu : D.Unmarshal e.data with
  | none => rw [hu] at h; cases h
  | some d =>
    rw [hu] at h
    simp only [Res.ok.injEq] at h
    subst h
    rfl

theorem keysNonempty_mem (disk : List (String × Stored)) (h : keysNonempty disk = true)
    (k : String) (v : Stored) (hin : (k, v) ∈ disk) : k.data ≠ [] := by
  simp only [keysNonempty, List.all_eq_true] at h
  have := h (k, v) hin
  intro he
  simp [he] at this

theorem keysNonempty_diskSet (key : String) (val : Stored) (hk : key.data ≠ [])
    (disk : List (String × Stored)) (h : keysNonempty disk = true) :
    keysNonempty (diskSet key val disk) = true := by
  have hkey : (!key.data.isEmpty) = true := by
    cases hd : key.data with
    | nil => exact absurd hd hk
    | cons c cs => rfl
  induction disk with
  | nil => simp [diskSet, keysNonempty, hkey]
  | cons kv rest ih =>
    obtain ⟨k, v⟩ := kv
    simp only [keysNonempty, List.all_cons, Bool.and_eq_true] at h ih ⊢
    unfold diskSet
    split
    · simp only [List.all_cons, Bool.and_eq_true]
      exact ⟨hkey, h.2⟩
    · split
      · simp only [List.all_cons, Bool.and_eq_true]
        exact ⟨hkey, h.1, h.2⟩
      · simp only [List.all_cons, Bool.and_eq_true]
        exact ⟨h.1, ih h.2⟩

theorem keysNonempty_diskDelete (key : String) (disk : List (String × Stored))
    (h : keysNonempty disk = true) : keysNonempty (diskDelete key disk) = true := by
  induction disk with
  | nil => exact h
  | cons kv rest ih =>
    obtain ⟨k, v⟩ := kv
    simp only [keysNonempty, List.all_cons, Bool.and_eq_true] at h ih ⊢
    unfold diskDelete
    split
    · exact ih h.2
    · simp only [List.all_cons, Bool.and_eq_true]
      exact ⟨h.1, ih h.2⟩

/-- No call puts a record under the empty key. -/
theorem run_keysNonempty {T : Type} (D : Deps T) (location : String) :
    ∀ (ops : List (Op T)) (w : World), keysNonempty w.disk = true →
      keysNonempty (run D location ops w).disk = true := by
  intro ops
  induction ops with
  | nil => intro w h; exact h
  | cons op ops ih =>
    intro w h
    simp only [run, List.foldl_cons]
    apply ih
    cases op with
    | write uuid obj =>
      simp only [Op.apply]
      rcases Write_disk D location uuid obj w with hw | ⟨e, -, hk, hw⟩
      · rw [hw]; exact h
      · rw [hw]; exact keysNonempty_diskSet uuid _ (checkKey_ne uuid hk) _ h
    | delete uuid =>
      simp only [Op.apply]
      rcases Delete_disk D location uuid w with hw | hw
      · rw [hw]; exact h
      · rw [hw]; exact keysNonempty_diskDelete uuid _ h

/-- On a store keyed by UUID, what `ReadAll` returns can be read. -/
theorem ReadAll_ids_readable {T : Type} (D : Deps T) (location env dType : String) (w : World)
    (hk : keyedByUUID w.disk = true) (hn : keysNonempty w.disk = true) (ids : List String)
    (hall : (ReadAll D location env dType w).1 = .ok ids) :
    ∀ id ∈ ids, ∃ o, (Read D location id w).1 = .ok o := by
  intro id hid
  have hd := openConn_disk D location true w
  unfold ReadAll at hall
  unfold Read
  cases ho : openConn D location true w with
  | mk r w1 =>
    rw [ho] at hall hd
    cases r with
    | error e => cases hall
    | panic => cases hall
    | ok d =>
      cases d with
      | none => cases hall
      | some db =>
        dsimp only at hall hd ⊢
        rw [hd] at hall ⊢
        obtain ⟨h1, h2⟩ := scan_ok_mem D env dType w.disk [] ids hall
        rcases h2 id hid with hin | ⟨kv, hkv, o, ho2, hu⟩
        · cases hin
        · obtain ⟨k, v⟩ := kv
          obtain ⟨e, hv, he⟩ := keyedByUUID_mem w.disk hk k v hkv
          subst hv
          have hid2 : k = id := by
            rw [← hu, convertToObject_uuid D e o ho2, he]
          subst hid2
          obtain ⟨v2, hg, hm⟩ := diskGet_of_mem k _ w.disk hkv
          obtain ⟨o3, ho3⟩ := h1 (k, v2) hm
          rw [txnGet_of_ne k w.disk (keysNonempty_mem w.disk hn k _ hkv), hg]
          exact ⟨o3, ho3⟩

/-! ## Key order -/

theorem keyLt_trans : ∀ a b c : List Char, keyLt a b = true → keyLt b c = true → keyLt a c = true := by
  intro a
  induction a with
  | nil =>
    intro b c h1 h2
    cases b with
    | nil => simp [keyLt] at h1
    | cons y ys =>
      cases c with
      | nil => simp [keyLt] at h2
      | cons z zs => simp [keyLt]
  | cons x xs ih =>
    intro b c h1 h2
    cases b with
    | nil => simp [keyLt] at h1
    | cons y ys =>
      cases c with
      | nil => simp [keyLt] at h2
      | cons z zs =>
        simp only [keyLt, Bool.or_eq_true, decide_eq_true_eq, Bool.and_eq_true, beq_iff_eq] at h1 h2 ⊢
        rcases h1 with h1 | ⟨rfl, h1⟩
        · rcases h2 with h2 | ⟨rfl, h2⟩
          · exact Or.inl (lt_trans h1 h2)
          · exact Or.inl h1
        · rcases h2 with h2 | ⟨rfl, h2⟩
          · exact Or.inl h2
          · exact Or.inr ⟨rfl, ih _ _ h1 h2⟩

theorem keyLt_total : ∀ a b : List Char, a ≠ b → keyLt a b = false → keyLt b a = true := by
  intro a
  induction a with
  | nil =>
    intro b hne h
    cases b with
    | nil => exact absurd rfl hne
    | cons y ys => simp [keyLt] at h
  | cons x xs ih =>
    intro b hne h
    cases b with
    | nil => simp [keyLt]
    | cons y ys =>
      simp only [keyLt, Bool.or_eq_false_iff, decide_eq_false_iff_not, Bool.and_eq_false_imp,
        beq_iff_eq] at h
      simp only [keyLt, Bool.or_eq_true, decide_eq_true_eq, Bool.and_eq_true, beq_iff_eq]
      obtain ⟨h1, h2⟩ := h
      by_cases hxy : x = y
      · subst hxy
        refine Or.inr ⟨rfl, ih ys (fun e => hne (by rw [e])) (h2 rfl)⟩
      · refine Or.inl ?_
        have hn : x.toNat ≠ y.toNat := fun e => hxy (by
          rw [← Char.ofNat_toNat x, ← Char.ofNat_toNat y, e])
        omega

theorem diskSet_mem (key : String) (val : Stored) (disk : List (String × Stored))
    (kv : String × Stored) (h : kv ∈ diskSet key val disk) : kv = (key, val) ∨ kv ∈ disk := by
  induction disk with
  | nil =>
    simp only [diskSet, List.mem_singleton] at h
    exact Or.inl h
  | cons x rest ih =>
    obtain ⟨k, v⟩ := x
    unfold diskSet at h
    split at h
    · rcases List.mem_cons.mp h with h | h
      · exact Or.inl h
      · exact Or.inr (List.mem_cons_of_mem _ h)
    · split at h
      · rcases List.mem_cons.mp h with h | h
        · exact Or.inl h
        · exact Or.inr h
      · rcases List.mem_cons.mp h with h | h
        · exact Or.inr (h ▸ List.mem_cons_self _ _)
        · rcases ih h with h | h
          · exact Or.inl h
          · exact Or.inr (List.mem_cons_of_mem _ h)

theorem diskDelete_mem (key : String) (disk : List (String × Stored))
    (kv : String × Stored) (h : kv ∈ diskDelete key disk) : kv ∈ disk := by
  induction disk with
  | nil => exact h
  | cons x rest ih =>
    obtain ⟨k, v⟩ := x
    unfold diskDelete at h
    split at h
    · exact List.mem_cons_of_mem _ (ih h)
    · rcases List.mem_cons.mp h with h | h
      · exact h ▸ List.mem_cons_self _ _
      · exact List.mem_cons_of_mem _ (ih h)

/-- `txn.Set` keeps the records in key order. -/
theorem sortedKeys_diskSet (key : String) (val : Stored) (disk : List (String × Stored))
    (h : sortedKeys disk = true) : sortedKeys (diskSet key val disk) = true := by
  induction disk with
  | nil => simp [diskSet, sortedKeys]
  | cons x rest ih =>
    obtain ⟨k, v⟩ := x
    simp only [sortedKeys, Bool.and_eq_true, List.all_eq_true] at h
    unfold diskSet
    split
    · rename_i hk
      subst hk
      simp only [sortedKeys, Bool.and_eq_true, List.all_eq_true]
      exact h
    · rename_i hk
      split
      · rename_i hlt
        simp only [sortedKeys, Bool.and_eq_true, List.all_eq_true, List.mem_cons]
        refine ⟨?_, h⟩
        rintro kv (rfl | hkv)
        · exact hlt
        · exact keyLt_trans _ _ _ hlt (h.1 kv hkv)
      · rename_i hlt
        simp only [sortedKeys, Bool.and_eq_true, List.all_eq_true]
        refine ⟨?_, ih h.2⟩
        intro kv hkv
        rcases diskSet_mem key val rest kv hkv with rfl | hkv
        · refine keyLt_total _ _ (fun e => hk ?_) (by simpa using hlt)
          exact (String.ext e).symm
        · exact h.1 kv hkv

/-- `txn.Delete` keeps the records in key order. -/
theorem sortedKeys_diskDelete (key : String) (disk : List (String × Stored))
    (h : sortedKeys disk = true) : sortedKeys (diskDelete key disk) = true := by
  induction disk with
  | nil => exact h
  | cons x rest ih =>
    obtain ⟨k, v⟩ := x
    simp only [sortedKeys, Bool.and_eq_true, List.all_eq_true] at h
    unfold diskDelete
    split
    · exact ih h.2
    · simp only [sortedKeys, Bool.and_eq_true, List.all_eq_true]
      exact ⟨fun kv hkv => h.1 kv (diskDelete_mem key rest kv hkv), ih h.2⟩

/-- Every store reached from the empty one is in key order. -/
theorem run_sortedKeys {T : Type} (D : Deps T) (location : String) :
    ∀ (ops : List (Op T)) (w : World), sortedKeys w.disk = true →
      sortedKeys (run D location ops w).disk = true := by
  intro ops
  induction ops with
  | nil => intro w h; exact h
  | cons op ops ih =>
    intro w h
    simp only [run, List.foldl_cons]
    apply ih
    cases op with
    | write uuid obj =>
      simp only [Op.apply]
      rcases Write_disk D location uuid obj w with hw | ⟨e, -, -, hw⟩
      · rw [hw]; exact h
      · rw [hw]; exact sortedKeys_diskSet uuid _ _ h
    | delete uuid =>
      simp only [Op.apply]
      rcases Delete_disk D location uuid w with hw | hw
      · rw [hw]; exact h
      · rw [hw]; exact sortedKeys_diskDelete uuid _ h

/-! ## Properties of the store -/

/-- C3: with an empty prior revision and a payload that marshals to `b`,
`getRev` returns "1-" followed by the hex encoding of the digest of `b`, and
the result is the same for every object that carries the same payload. -/
theorem getRev_first {T : Type} (D : Deps T) (o : Object T) (b : String)
    (hb : D.Marshal o.Data = some b) :
    getRev D "" o = .ok ("1-" ++ String.mk (EncodeToString (D.Sum256 b)))
      ∧ ∀ o' : Object T, o'.Data = o.Data → getRev D "" o' = getRev D "" o :=
  ⟨getRev_empty D o b hb, fun o' h => getRev_data_only D "" o o' h⟩

/-- Instance of `getRev_first`: the configuration payload, and an object that
shares nothing with it but the payload. -/
theorem getRev_first_witness :
    getRev rawDeps "" configObject = .ok "1-7b226e616d65223a226e6f646531227d"
      ∧ getRev rawDeps ""
            { configObject with UUID := "u", Rev := "9-x", History := ["a"], Typ := "other" }
          = getRev rawDeps "" configObject :=
  ⟨(getRev_first rawDeps configObject "\x7b\"name\":\"node1\"\x7d" rfl).1,
   (getRev_first rawDeps configObject "\x7b\"name\":\"node1\"\x7d" rfl).2 _ rfl⟩

/-- C4 (as stated, refuted): the prior revision "9223372036854775807-0" has the
largest `int` as its sequence number.  Whatever the digest function, `getRev`
succeeds on it and returns a revision that starts with "-9223372036854775808":
the increment wrapped, and the sequence number of the result does not parse. -/
theorem getRev_wraps_at_maxInt :
    seqOf "9223372036854775807-0" = .ok (maxInt : Int)
      ∧ ∀ sum : String → List Nat,
          getRev { rawDeps with Sum256 := sum } "9223372036854775807-0" configObject
              = .ok ("-9223372036854775808-"
                  ++ String.mk (EncodeToString (sum configObject.Data)))
            ∧ seqOf ("-9223372036854775808-"
                  ++ String.mk (EncodeToString (sum configObject.Data)))
                = .error .ErrSyntax := by
  refine ⟨by decide, fun sum => ⟨?_, rfl⟩⟩
  rfl

/-- C4 (amended): when the text before the first '-' of the prior revision
parses to `n` with `0 ≤ n` and `n` below the largest `int`, and the payload
marshals, `getRev` succeeds with the decimal text of `n + 1`, a '-' and the
hash; the sequence number of that revision is `n + 1`. -/
theorem getRev_next {T : Type} (D : Deps T) (currRev : String) (o : Object T) (b : String)
    (n : Int) (hb : D.Marshal o.Data = some b) (hp : seqOf currRev = .ok n)
    (h0 : 0 ≤ n) (hlt : n < (maxInt : Int)) :
    getRev D currRev o
        = .ok (String.mk (fmtInt (n + 1) ++ '-' :: EncodeToString (D.Sum256 b)))
      ∧ seqOf (String.mk (fmtInt (n + 1) ++ '-' :: EncodeToString (D.Sum256 b)))
          = .ok (n + 1) :=
  getRev_succ D currRev o b n hb hp h0 hlt

/-- Instance of `getRev_next`: prior revision "41-abc". -/
theorem getRev_next_witness :
    getRev rawDeps "41-abc" configObject = .ok "42-7b226e616d65223a226e6f646531227d"
      ∧ seqOf "42-7b226e616d65223a226e6f646531227d" = .ok 42 :=
  getRev_next rawDeps "41-abc" configObject "\x7b\"name\":\"node1\"\x7d" 41 rfl (by decide)
    (by decide) (by decide)

/-- C8 (the code at the failing input): when the first `openConn` of a process
fails to open the engine it returns the open error, and the call after it
returns a nil handle with a nil error; a `Read` or `Write` that follows does
not return. -/
theorem openConn_after_failed_open {T : Type} (D : Deps T) (location : String)
    (disk : List (String × Stored)) (e : Error) (first later : Bool)
    (hfail : D.OpenErr { DefaultOptions location with Logger := false } = some e) :
    (openConn D location first (World.start disk)).1 = .error e
      ∧ (openConn D location later (openConn D location first (World.start disk)).2).1
          = .ok none
      ∧ (∀ uuid, (Read D location uuid (openConn D location first (World.start disk)).2).1
          = .panic) := by
  have h1 := openConn_fresh D location first (World.start disk) rfl
  rw [hfail] at h1
  simp only at h1
  rw [h1]
  refine ⟨rfl, ?_, ?_⟩
  · rw [openConn_cached D location later _ rfl]
    rfl
  · intro uuid
    simp only [Read, openConn_cached D location true { World.start disk with once := true } rfl]
    rfl

/-- Instance of `openConn_after_failed_open`: an engine that does not open. -/
theorem openConn_after_failed_open_witness :
    (openConn brokenDeps "/db" false (World.start [])).1 = .error (.open_ 1)
      ∧ (openConn brokenDeps "/db" false (openConn brokenDeps "/db" false (World.start [])).2).1
          = .ok none
      ∧ (∀ uuid, (Read brokenDeps "/db" uuid (openConn brokenDeps "/db" false (World.start [])).2).1
          = .panic) :=
  openConn_after_failed_open brokenDeps "/db" [] (.open_ 1) false false rfl

/-- C10: `openConn` does the same whatever its `readonly` argument; a handle it
opens is never read-only; and in a process whose first operation is a `Read` or
a `ReadAll` on an engine that opens, the connection left behind serves writes:
a `Write` after the `Read` does what it would have done as the first call. -/
theorem openConn_ignores_readonly {T : Type} (D : Deps T) (location : String) (w : World) :
    openConn D location true w = openConn D location false w
      ∧ (∀ readonly db w1, w.once = false →
          openConn D location readonly w = (.ok (some db), w1) → db.conn.opt.ReadOnly = false)
      ∧ (w.once = false →
          D.OpenErr { DefaultOptions location with Logger := false } = none →
          (∀ uuid, connected D location (Read D location uuid w).2 = true)
            ∧ (∀ env dType, connected D location (ReadAll D location env dType w).2 = true)
            ∧ (∀ uuid key obj,
                (Write D location key obj (Read D location uuid w).2).1
                    = (Write D location key obj w).1
                  ∧ (Write D location key obj (Read D location uuid w).2).2.disk
                    = (Write D location key obj w).2.disk)) := by
  refine ⟨openConn_readonly D location w, ?_, ?_⟩
  · intro readonly db w1 ho h
    exact (openConn_cases D location readonly w w1 db h).2.2.2 ho
  · intro ho hopen
    have h1 := openConn_fresh D location true w ho
    rw [hopen] at h1
    simp only at h1
    have h2 := openConn_fresh D location false w ho
    rw [hopen] at h2
    simp only at h2
    refine ⟨?_, ?_, ?_⟩
    · intro uuid
      simp only [Read, h1]
      cases txnGet uuid w.disk <;> exact connected_of_cached D location _ _ rfl rfl rfl
    · intro env dType
      simp only [ReadAll, h1]
      exact connected_of_cached D location _ _ rfl rfl rfl
    · intro uuid key obj
      have hw : (Read D location uuid w).2 =
          { w with once := true,
                   inst := some { conn := { opt := { DefaultOptions location with Logger := false } } } } := by
        simp only [Read, h1]
        cases txnGet uuid w.disk <;> rfl
      rw [hw]
      unfold Write
      rw [h2, openConn_cached D location false _ rfl]
      cases getRev D obj.Rev obj with
      | error e => exact ⟨rfl, rfl⟩
      | panic => exact ⟨rfl, rfl⟩
      | ok rev =>
        dsimp only
        cases growHistory obj.History rev with
        | none => exact ⟨rfl, rfl⟩
        | some history =>
          dsimp only
          cases marshalObject D { obj with History := history, Rev := rev } with
          | none => exact ⟨rfl, rfl⟩
          | some bData => exact ⟨rfl, rfl⟩

/-- C1: after a `Write(uuid, obj)` that succeeds, with a payload that
unmarshals from its own JSON text to itself, `Read(uuid)` succeeds and returns
the payload, environment, type and UUID of `obj` (and the history of `obj`
extended by the new revision), whatever the store held before. -/
theorem Read_after_Write {T : Type} (D : Deps T) (location uuid : String) (obj : Object T)
    (w : World) (hok : (Write D location uuid obj w).1 = .ok ())
    (hinv : ∀ b, D.Marshal obj.Data = some b → D.Unmarshal b = some obj.Data) :
    ∃ r, (Read D location uuid (Write D location uuid obj w).2).1 = .ok r
      ∧ r.Data = obj.Data ∧ r.Environment = obj.Environment ∧ r.Typ = obj.Typ
      ∧ r.UUID = obj.UUID ∧ r.History = obj.History ++ [r.Rev] := by
  obtain ⟨rev, b, -, hb, -, hdisk, hconn⟩ := Write_ok D location uuid obj w hok
  have hne := checkKey_ne uuid (Write_ok_key D location uuid obj w hok)
  rw [Read_connected D location uuid _ hconn hne, hdisk, diskGet_diskSet]
  simp only [convertToObject, hinv b hb]
  exact ⟨_, rfl, rfl, rfl, rfl, rfl, rfl⟩

/-- Instance of `Read_after_Write`: the first write of the configuration. -/
theorem Read_after_Write_witness :
    ∃ r, (Read rawDeps "/db" "config"
            (Write rawDeps "/db" "config" configObject (World.start [])).2).1 = .ok r
      ∧ r.Data = configObject.Data ∧ r.Environment = configObject.Environment
      ∧ r.Typ = configObject.Typ ∧ r.UUID = configObject.UUID
      ∧ r.History = configObject.History ++ [r.Rev] :=
  Read_after_Write rawDeps "/db" "config" configObject (World.start []) (by decide)
    (by intro b h; cases h; rfl)

/-- C6 (as stated, refuted): on an empty store, with a connection that opens,
`Delete` of the empty identifier returns the engine's empty-key error, and
`Read` of the empty identifier fails with that error, not with the not-found
error, although nothing is stored under it; `Delete` of an identifier with the
engine's reserved start, or of one of 65001 bytes, returns an error too. -/
theorem Delete_refuses_some_keys :
    diskGet "" (World.start []).disk = none
      ∧ (Delete rawDeps "/db" "" (World.start [])).1 = .error .ErrEmptyKey
      ∧ (Read rawDeps "/db" "" (World.start [])).1 = (.error .ErrEmptyKey : Res (Object String))
      ∧ (Delete rawDeps "/db" "!badger!x" (World.start [])).1 = .error .ErrInvalidKey
      ∧ (Delete rawDeps "/db" (String.mk (List.replicate 65001 'a')) (World.start [])).1
          = .error .ErrKeySize := by
  refine ⟨rfl, by decide, by decide, by decide, ?_⟩
  exact (Delete_refused rawDeps "/db" _ (World.start []) (by decide) .ErrKeySize
    (checkKey_long 'a' 65000 (by decide) (by decide) (by decide))).1

/-- C6 (amended): on a connection that serves reads and writes, for every
identifier that is not empty, `Read` fails with the not-found error exactly
when nothing is stored under it; and for every identifier the engine takes as
a key (not empty, without the reserved start, at most 65000 bytes), `Delete`
returns no error and leaves exactly the records under other keys, the records
are unchanged when nothing was stored under it, and `Read` after the `Delete`
fails with the not-found error. -/
theorem Delete_then_Read {T : Type} (D : Deps T) (location uuid : String) (w : World)
    (hconn : connected D location w = true) (hne : uuid ≠ "") :
    ((Read D location uuid w).1 = (.error .ErrKeyNotFound : Res (Object T))
        ↔ diskGet uuid w.disk = none)
      ∧ (checkKey uuid = none →
          (Delete D location uuid w).1 = .ok ()
            ∧ (Delete D location uuid w).2.disk = diskDelete uuid w.disk
            ∧ (diskGet uuid w.disk = none → (Delete D location uuid w).2.disk = w.disk)
            ∧ (Read D location uuid (Delete D location uuid w).2).1
                = (.error .ErrKeyNotFound : Res (Object T))) := by
  have hd := data_ne_of_ne uuid hne
  constructor
  · rw [Read_connected D location uuid w hconn hd]
    cases hg : diskGet uuid w.disk with
    | none => simp
    | some v =>
      simp only [reduceCtorEq, iff_false]
      unfold convertToObject
      cases v with
      | other t => simp
      | envelope e =>
        simp only
        cases D.Unmarshal e.data <;> simp
  · intro hkey
    obtain ⟨h1, h2, h3⟩ := Delete_connected D location uuid w hconn hkey
    refine ⟨h1, h2, fun habs => by rw [h2, diskDelete_absent uuid w.disk habs], ?_⟩
    rw [Read_connected D location uuid _ h3 hd, h2, diskGet_diskDelete]

/-- Instance of `Delete_then_Read`: on the store of the two objects, the key
"config", which is present, and the key "missing", which is not. -/
theorem Delete_then_Read_witness :
    (((Read rawDeps "/db" "config" twoObjects).1 = (.error .ErrKeyNotFound : Res (Object String))
          ↔ diskGet "config" twoObjects.disk = none)
        ∧ (Delete rawDeps "/db" "config" twoObjects).1 = .ok ()
        ∧ (Delete rawDeps "/db" "config" twoObjects).2.disk = diskDelete "config" twoObjects.disk
        ∧ (Read rawDeps "/db" "config" (Delete rawDeps "/db" "config" twoObjects).2).1
            = (.error .ErrKeyNotFound : Res (Object String)))
      ∧ (((Read rawDeps "/db" "missing" twoObjects).1
              = (.error .ErrKeyNotFound : Res (Object String))
            ↔ diskGet "missing" twoObjects.disk = none)
        ∧ (Delete rawDeps "/db" "missing" twoObjects).1 = .ok ()
        ∧ (Delete rawDeps "/db" "missing" twoObjects).2.disk = twoObjects.disk) :=
  ⟨⟨(Delete_then_Read rawDeps "/db" "config" twoObjects (by decide) (by decide)).1,
    ((Delete_then_Read rawDeps "/db" "config" twoObjects (by decide) (by decide)).2
      (by decide)).1,
    ((Delete_then_Read rawDeps "/db" "config" twoObjects (by decide) (by decide)).2
      (by decide)).2.1,
    ((Delete_then_Read rawDeps "/db" "config" twoObjects (by decide) (by decide)).2
      (by decide)).2.2.2⟩,
   ⟨(Delete_then_Read rawDeps "/db" "missing" twoObjects (by decide) (by decide)).1,
    ((Delete_then_Read rawDeps "/db" "missing" twoObjects (by decide) (by decide)).2
      (by decide)).1,
    ((Delete_then_Read rawDeps "/db" "missing" twoObjects (by decide) (by decide)).2
      (by decide)).2.2.1 (by decide)⟩⟩

/-- C5: on a usable connection and a store whose values all convert (to
`objs`, one per record, in key order), `ReadAll(env, dType)` succeeds and
returns the UUIDs of the objects that pass the filter, in that order (the empty
list when none does); with `dType = "all"` these are the objects of the
environment whatever their type. -/
theorem ReadAll_filter {T : Type} (D : Deps T) (location env dType : String) (w : World)
    (objs : List (Object T)) (hconn : connected D location w = true)
    (hdec : decodeAll D w.disk = some objs) :
    (ReadAll D location env dType w).1
        = .ok ((objs.filter (passes env dType)).map (fun o => o.UUID))
      ∧ (ReadAll D location env "all" w).1
        = .ok ((objs.filter (fun o => o.Environment == env)).map (fun o => o.UUID))
      ∧ objs.length = w.disk.length := by
  refine ⟨?_, ?_, decodeAll_length D w.disk objs hdec⟩
  · rw [ReadAll_connected D location env dType w hconn, scan_eq_filter D env dType _ objs [] hdec]
    rfl
  · rw [ReadAll_connected D location env "all" w hconn, scan_eq_filter D env "all" _ objs [] hdec]
    have : (passes env "all" : Object T → Bool) = fun o => o.Environment == env := by
      funext o
      simp [passes]
    rw [this]
    rfl

/-- Instance of `ReadAll_filter`: two objects of type "config" in the
environments "self" and "tenant-a"; only the first is in "self". -/
theorem ReadAll_filter_witness :
    (ReadAll rawDeps "/db" "self" "config" twoObjects).1 = .ok ["config"]
      ∧ (ReadAll rawDeps "/db" "self" "all" twoObjects).1 = .ok ["config"]
      ∧ 2 = twoObjects.disk.length :=
  ReadAll_filter rawDeps "/db" "self" "config" twoObjects
    [{ configObject with Rev := "1-7b226e616d65223a226e6f646531227d",
                         History := ["1-7b226e616d65223a226e6f646531227d"] },
     { tenantObject with Rev := "1-7b7d", History := ["1-7b7d"] }]
    (by decide) (by decide)
/-- C7 (as stated, refuted): a caller-supplied object with revision "5-0" and
an empty history is written successfully, whatever the digest function; the
stored revision has sequence number 6 and the stored history has one element. -/
theorem Write_seq_differs_from_history_length :
    (seqOf "5-0" = .ok 5 ∧ ({ configObject with Rev := "5-0" } : Object String).History = [])
      ∧ ∀ sum : String → List Nat,
          (Write { rawDeps with Sum256 := sum } "/db" "config" { configObject with Rev := "5-0" }
              (World.start [])).1 = .ok ()
            ∧ diskGet "config"
                (Write { rawDeps with Sum256 := sum } "/db" "config"
                  { configObject with Rev := "5-0" } (World.start [])).2.disk
              = some (.envelope
                  { uuid := "config",
                    rev := "6-" ++ String.mk (EncodeToString (sum configObject.Data)),
                    history := ["6-" ++ String.mk (EncodeToString (sum configObject.Data))],
                    data := configObject.Data, env := "self", typ := "config" })
            ∧ seqOf ("6-" ++ String.mk (EncodeToString (sum configObject.Data))) = .ok 6 :=
  ⟨⟨by decide, rfl⟩, fun _ => ⟨rfl, rfl, rfl⟩⟩

/-- C7 (amended): after a successful `Write(uuid, obj)` of an object whose
revision has the length of its history as sequence number (or whose revision
and history are both empty), the record stored under `uuid` has a revision
whose sequence number is the length of its history. -/
theorem Write_seq_eq_history_length {T : Type} (D : Deps T) (location uuid : String)
    (obj : Object T) (w : World) (hok : (Write D location uuid obj w).1 = .ok ())
    (hseq : seqOf obj.Rev = .ok (obj.History.length : Int)
      ∨ (obj.Rev = "" ∧ obj.History = [])) :
    ∃ e, diskGet uuid (Write D location uuid obj w).2.disk = some (.envelope e)
      ∧ seqOf e.rev = .ok (e.history.length : Int) := by
  rcases hseq with hseq | ⟨hrev, hhist⟩
  · obtain ⟨b, -, hs, hdisk, -⟩ := Write_ok_seq D location uuid obj w hok hseq
    refine ⟨_, by rw [hdisk, diskGet_diskSet], ?_⟩
    simp only [List.length_append, List.length_singleton]
    exact hs
  · obtain ⟨rev, b, hr, hb, -, hdisk, -⟩ := Write_ok D location uuid obj w hok
    rw [hrev, getRev_empty D obj b hb] at hr
    cases hr
    refine ⟨_, by rw [hdisk, diskGet_diskSet], ?_⟩
    simp only [hhist, List.nil_append, List.length_singleton]
    exact seqOf_mk 1 (by decide) _

/-- Instance of `Write_seq_eq_history_length`: the first write of the
configuration. -/
theorem Write_seq_eq_history_length_witness :
    ∃ e, diskGet "config" (Write rawDeps "/db" "config" configObject (World.start [])).2.disk
          = some (.envelope e)
      ∧ seqOf e.rev = .ok (e.history.length : Int) :=
  Write_seq_eq_history_length rawDeps "/db" "config" configObject (World.start []) (by decide)
    (Or.inl (by decide))

/-- C2: chained writes to one identifier that start from an object built by
`NewObject` (the caller may have set other fields; the revision "0-0" and the
empty history are as built), each later write taking the object `Read` returns
(payload edited or not): when all `k` writes and the reads between them
succeed, the stored history has `k` elements, it lists in order the revisions
found in the store after each write, and the `i`-th of them is the decimal text
of `i`, a '-' and the hash of the payload written by the `i`-th write, so its
sequence number is `i`.  What the store held before plays no role. -/
theorem chain_history {T : Type} (D : Deps T) (location uuid : String)
    (gen : Option String) (data : T) (built : Object T)
    (edits : List (T → T)) (first : Object T) (w w' : World) (log : List (T × String))
    (hnew : NewObject gen data = .ok built)
    (hrev : first.Rev = built.Rev) (hhist : first.History = built.History)
    (hrun : chain D location uuid edits first w = some (log, w')) :
    log.length = edits.length + 1
      ∧ (∃ e, diskGet uuid w'.disk = some (.envelope e)
          ∧ e.history = log.map Prod.snd ∧ e.history.length = edits.length + 1)
      ∧ ∀ (i : Nat) (p : T) (rev : String), log[i]? = some (p, rev) →
          ∃ b, D.Marshal p = some b
            ∧ rev = String.mk (fmtNat (i + 1) ++ '-' :: EncodeToString (D.Sum256 b))
            ∧ seqOf rev = .ok ((i + 1 : Nat) : Int) := by
  have hb : built.Rev = "0-0" ∧ built.History = [] := by
    unfold NewObject at hnew
    cases gen with
    | none => cases hnew
    | some u =>
      simp only [Res.ok.injEq] at hnew
      subst hnew
      exact ⟨rfl, rfl⟩
  rw [hb.1] at hrev
  rw [hb.2] at hhist
  have hseq : seqOf first.Rev = .ok (first.History.length : Int) := by
    rw [hrev, hhist]
    decide
  obtain ⟨h1, ⟨e, he1, he2⟩, h3⟩ := chain_spec D location uuid edits first w w' log hrun hseq
  rw [hhist] at he2 h3
  simp only [List.nil_append, List.length_nil, Nat.zero_add] at he2 h3
  refine ⟨h1, ⟨e, he1, he2, ?_⟩, h3⟩
  rw [he2, List.length_map, h1]

/-- Instance of `chain_history`: the configuration written, read back and
written again unchanged; the revisions are "1-h" and "2-h" for one hash h. -/
theorem chain_history_witness :
    [(configObject.Data, "1-7b226e616d65223a226e6f646531227d"),
        (configObject.Data, "2-7b226e616d65223a226e6f646531227d")].length = [@id String].length + 1
      ∧ (∃ e, diskGet "config" writtenTwice.disk = some (.envelope e)
          ∧ e.history = [(configObject.Data, "1-7b226e616d65223a226e6f646531227d"),
              (configObject.Data, "2-7b226e616d65223a226e6f646531227d")].map Prod.snd
          ∧ e.history.length = [@id String].length + 1)
      ∧ ∀ (i : Nat) (p : String) (rev : String),
          [(configObject.Data, "1-7b226e616d65223a226e6f646531227d"),
            (configObject.Data, "2-7b226e616d65223a226e6f646531227d")][i]? = some (p, rev) →
          ∃ b, rawDeps.Marshal p = some b
            ∧ rev = String.mk (fmtNat (i + 1) ++ '-' :: EncodeToString (rawDeps.Sum256 b))
            ∧ seqOf rev = .ok ((i + 1 : Nat) : Int) :=
  chain_history rawDeps "/db" "config" (some "config") configObject.Data
    { configObject with Environment := "", Typ := "" }
    [id] configObject (World.start []) writtenTwice
    [(configObject.Data, "1-7b226e616d65223a226e6f646531227d"),
      (configObject.Data, "2-7b226e616d65223a226e6f646531227d")]
    rfl rfl rfl (by decide)

/-- C9 (as stated, refuted): from the empty store, one `Write` of an object
whose UUID is "config" under the key "k" leaves, whatever the digest function,
a single record under "k" whose `uuid` field is "config"; `ReadAll` then
returns "config", and `Read` of "config" fails with the not-found error. -/
theorem uuid_field_differs_from_key :
    Op.byUUID (Op.write "k" configObject) = false
      ∧ ∀ sum : String → List Nat,
          (run { rawDeps with Sum256 := sum } "/db" [.write "k" configObject]
              (World.start [])).disk
            = [("k", .envelope
                { uuid := "config",
                  rev := "1-" ++ String.mk (EncodeToString (sum configObject.Data)),
                  history := ["1-" ++ String.mk (EncodeToString (sum configObject.Data))],
                  data := configObject.Data, env := "self", typ := "config" })]
          ∧ keyedByUUID (run { rawDeps with Sum256 := sum } "/db" [.write "k" configObject]
              (World.start [])).disk = false
          ∧ (ReadAll { rawDeps with Sum256 := sum } "/db" "self" "all"
              (run { rawDeps with Sum256 := sum } "/db" [.write "k" configObject]
                (World.start []))).1 = .ok ["config"]
          ∧ (Read { rawDeps with Sum256 := sum } "/db" "config"
              (run { rawDeps with Sum256 := sum } "/db" [.write "k" configObject]
                (World.start []))).1 = .error .ErrKeyNotFound :=
  ⟨by decide, fun _ => ⟨rfl, rfl, rfl, rfl⟩⟩

/-- C9 (amended): in every store reached from the empty store by `Write` calls
that pass the object's own UUID as the key and by `Delete` calls, every record
is an envelope whose `uuid` field is its key, and every identifier that
`ReadAll` returns is one for which `Read` succeeds. -/
theorem keyed_store_readable {T : Type} (D : Deps T) (location : String) (ops : List (Op T))
    (hops : ∀ op ∈ ops, op.byUUID = true) :
    keyedByUUID (run D location ops (World.start [])).disk = true
      ∧ ∀ (env dType : String) (ids : List String),
          (ReadAll D location env dType (run D location ops (World.start []))).1 = .ok ids →
          ∀ id ∈ ids, ∃ o, (Read D location id (run D location ops (World.start []))).1 = .ok o := by
  have hk := run_keyedByUUID D location ops (World.start []) hops rfl
  have hn := run_keysNonempty D location ops (World.start []) rfl
  exact ⟨hk, fun env dType ids hall =>
    ReadAll_ids_readable D location env dType _ hk hn ids hall⟩

/-- Instance of `keyed_store_readable`: the two objects, each written under its
UUID. -/
theorem keyed_store_readable_witness :
    keyedByUUID twoObjects.disk = true
      ∧ ∀ (env dType : String) (ids : List String),
          (ReadAll rawDeps "/db" env dType twoObjects).1 = .ok ids →
          ∀ id ∈ ids, ∃ o, (Read rawDeps "/db" id twoObjects).1 = .ok o :=
  keyed_store_readable rawDeps "/db" [.write "t-1" tenantObject, .write "config" configObject]
    (by decide)

end Datastore
